import Mathlib

/-!
Verification of the video-compilation backend (`main.py`).

Strings from the Python source are modelled as `List Char` (`Str` below),
so that Python's `str.strip`, `str.replace`, `str.split` and the regular
expression used by `parse_github_url` can be given executable, induction-
friendly definitions that mirror CPython's semantics on the character level.
-/

set_option maxHeartbeats 1000000

abbrev Str := List Char

/-- Python whitespace characters recognised by `str.strip()` (ASCII range). -/
def isPySpace (c : Char) : Bool :=
  c = ' ' || c = '\t' || c = '\n' || c = '\x0d' || c = '\x0b' || c = '\x0c'

/-- `s.strip()`: drop leading and trailing whitespace. -/
def pyStrip (s : Str) : Str :=
  ((s.dropWhile isPySpace).reverse.dropWhile isPySpace).reverse

/-- Fuel-driven worker for `pyReplace`; the fuel argument only forces
structural recursion and is irrelevant whenever it dominates the length of
the string (`pyReplaceAux_fuel`). -/
def pyReplaceAux (pat rep : Str) : Nat → Str → Str
  | _, [] => []
  | 0, s => s
  | fuel + 1, c :: s =>
    if pat.isPrefixOf (c :: s) && !pat.isEmpty then
      rep ++ pyReplaceAux pat rep fuel ((c :: s).drop pat.length)
    else
      c :: pyReplaceAux pat rep fuel s

/-- `s.replace(pat, rep)`: replace every occurrence of `pat`, scanning left to
right, non-overlapping, continuing after each replacement — CPython semantics
for a non-empty pattern (all patterns used by `main.py` are non-empty). -/
def pyReplace (pat rep s : Str) : Str :=
  pyReplaceAux pat rep s.length s

theorem pyReplaceAux_fuel (pat rep : Str) :
    ∀ fuel s, s.length ≤ fuel → pyReplaceAux pat rep fuel s = pyReplace pat rep s := by
  intro fuel
  induction fuel using Nat.strong_induction_on with
  | _ fuel ih =>
    intro s hs
    cases s with
    | nil => cases fuel <;> rfl
    | cons c s =>
      cases fuel with
      | zero => simp at hs
      | succ n =>
        show pyReplaceAux pat rep (n+1) (c :: s) = pyReplaceAux pat rep (c :: s).length (c :: s)
        simp only [List.length_cons, pyReplaceAux]
        have hsn : s.length ≤ n := by simpa using hs
        by_cases h : (pat.isPrefixOf (c :: s) && !pat.isEmpty) = true
        · simp only [if_pos h]
          have hp : 1 ≤ pat.length := by
            cases pat with
            | nil => simp [List.isEmpty] at h
            | cons p ps => simp
          have hd : ((c :: s).drop pat.length).length ≤ n := by
            simp only [List.length_drop, List.length_cons]; omega
          have hd' : ((c :: s).drop pat.length).length ≤ s.length := by
            simp only [List.length_drop, List.length_cons]; omega
          rw [ih n (by omega) _ hd, ih s.length (by omega) _ hd']
        · simp only [if_neg h]
          rw [ih n (by omega) s hsn, ih s.length (by omega) s (Nat.le_refl _)]

theorem pyReplace_nil (pat rep : Str) : pyReplace pat rep [] = [] := rfl

theorem pyReplace_cons_pos (pat rep : Str) (c : Char) (s : Str)
    (hne : pat ≠ []) (hpre : pat.isPrefixOf (c :: s) = true) :
    pyReplace pat rep (c :: s) = rep ++ pyReplace pat rep ((c :: s).drop pat.length) := by
  have hp : 1 ≤ pat.length := by
    cases pat with
    | nil => exact absurd rfl hne
    | cons p ps => simp
  have hd : ((c :: s).drop pat.length).length ≤ s.length := by
    simp only [List.length_drop, List.length_cons]; omega
  have hcond : (pat.isPrefixOf (c :: s) && !pat.isEmpty) = true := by
    cases pat with
    | nil => exact absurd rfl hne
    | cons p ps => simp [hpre]
  show pyReplaceAux pat rep (c :: s).length (c :: s) = _
  simp only [List.length_cons, pyReplaceAux, if_pos hcond]
  rw [pyReplaceAux_fuel pat rep s.length _ hd]

theorem pyReplace_cons_neg (pat rep : Str) (c : Char) (s : Str)
    (hpre : pat.isPrefixOf (c :: s) = false) :
    pyReplace pat rep (c :: s) = c :: pyReplace pat rep s := by
  have hcond : ¬ ((pat.isPrefixOf (c :: s) && !pat.isEmpty) = true) := by
    simp [hpre]
  show pyReplaceAux pat rep (c :: s).length (c :: s) = _
  simp only [List.length_cons, pyReplaceAux, if_neg hcond]
  rw [pyReplaceAux_fuel pat rep s.length s (Nat.le_refl _)]

/-- `s.split(sep)` for a single-character separator; `"".split("/") = [""]`. -/
def pySplit (sep : Char) : Str → List Str
  | [] => [[]]
  | c :: s =>
    if c = sep then [] :: pySplit sep s
    else
      match pySplit sep s with
      | [] => [[c]]
      | seg :: rest => (c :: seg) :: rest

/-- A character the regex class `[^\/\s]` accepts: not a slash, not whitespace. -/
def notSlashSpace (c : Char) : Bool :=
  !(c = '/' || isPySpace c)

def githubComSlash : Str := "github.com/".toList
def sshGithub : Str := "git@github.com:".toList
def httpsGithub : Str := "https://github.com/".toList
def githubColon : Str := "github.com:".toList
def dotGit : Str := ".git".toList

/-- One attempt of the regex
`(?:https?:\/\/)?(?:www\.)?github\.com\/(?P<owner>[^\/\s]+)\/(?P<repo>[^\/\s]+)`
at the head of `s`, reduced to its mandatory core `github\.com\/owner\/repo`.
The optional scheme/`www.` prefixes never influence the captured groups: they
only allow the overall match to start a few characters earlier, in a region
whose text (`https://`, `http://`, `www.` or a combination) cannot itself
contain the literal `github.com/`, so the leftmost successful overall match
always captures at the leftmost position where this core matches. -/
def matchCore (s : Str) : Option (Str × Str) :=
  if githubComSlash.isPrefixOf s then
    let rest := s.drop githubComSlash.length
    let owner := rest.takeWhile notSlashSpace
    if owner = [] then none
    else
      match rest.drop owner.length with
      | '/' :: rest2 =>
        let repo := rest2.takeWhile notSlashSpace
        if repo = [] then none else some (owner, repo)
      | _ => none
  else none

/-- `re.search`: try `matchCore` at every position, leftmost first. -/
def searchCore : Str → Option (Str × Str)
  | [] => none
  | c :: s =>
    match matchCore (c :: s) with
    | some r => some r
    | none => searchCore s

/-- `parse_github_url` from `main.py`:
```
def parse_github_url(url):
    if not url: return None
    url = url.strip().replace("git@github.com:", "https://github.com/")
             .replace("github.com:", "github.com/")
    m = re.search(r"(?:https?:\/\/)?(?:www\.)?github\.com\/(?P<owner>[^\/\s]+)\/(?P<repo>[^\/\s]+)", url)
    if not m: return None
    return {"owner": m.group("owner"), "repo": m.group("repo").replace(".git", "")}
```
-/
def parse_github_url (url : Str) : Option (Str × Str) :=
  if url = [] then none
  else
    let u := pyReplace githubColon githubComSlash (pyReplace sshGithub httpsGithub (pyStrip url))
    match searchCore u with
    | none => none
    | some (owner, repo) => some (owner, pyReplace dotGit [] repo)

example : parse_github_url "https://github.com/foo/bar".toList =
    some ("foo".toList, "bar".toList) := by decide

example : parse_github_url "https://github.com/foo/bar.git".toList =
    some ("foo".toList, "bar".toList) := by decide

example : parse_github_url "git@github.com:foo/bar.git".toList =
    some ("foo".toList, "bar".toList) := by decide

example : parse_github_url "".toList = none := by decide

example : parse_github_url "https://gitlab.com/foo/bar".toList = none := by decide

example : parse_github_url "https://github.com/foo/user.github.io".toList =
    some ("foo".toList, "userhub.io".toList) := by decide

/-!
## Data model: the tree of `build_hierarchy`

Python represents nodes as dicts. The root and the intermediate nodes are
created without an explicit `"isFile"` key; every read of that key goes
through `node.get("isFile")` or `node.get("isFile", False)`, both falsy, so
`isFile` is modelled as a plain `Bool` that is `false` for such nodes.
A missing `"summary"` key is `summary = none`.
-/

structure TreeNode where
  name : Str
  path : Str
  isFile : Bool
  summary : Option Str
  children : List TreeNode

/-- One record of the flat listing handed to `build_hierarchy`:
`{"path": t["path"], "type": t["type"]}`. -/
structure BlobRecord where
  path : Str
  type : Str

/-- `node["path"] + "/" + p if node["path"] else p`. -/
def childPath (pp p : Str) : Str := if pp = [] then p else pp ++ '/' :: p

/-- `next((c for c in node["children"] if c["name"] == p), None)`. -/
def findNamed (l : List TreeNode) (nm : Str) : Option TreeNode :=
  l.find? (fun c => c.name == nm)

/-- Writing an updated child back in place of the first child with the given
name (the Python loop mutates that child through a shared reference). -/
def replaceNamed : List TreeNode → Str → TreeNode → List TreeNode
  | [], _, _ => []
  | c :: cs, nm, c' => if c.name == nm then c' :: cs else c :: replaceNamed cs nm c'

/-- The inner `for i, p in enumerate(parts)` walk of `build_hierarchy` for a
single record, written as recursion over the remaining segments: find or
create the child named `p`, then continue inside it.  A created node gets
`isFile = (i == len(parts)-1 and item.get("type") == "blob")` and is appended
at the end of the children list. -/
def insertRec : List Str → Str → TreeNode → TreeNode
  | [], _, t => t
  | p :: rest, ty, t =>
    match findNamed t.children p with
    | some c => { t with children := replaceNamed t.children p (insertRec rest ty c) }
    | none =>
      let fresh : TreeNode :=
        { name := p, path := childPath t.path p,
          isFile := rest.isEmpty && ty == "blob".toList,
          summary := none, children := [] }
      { t with children := t.children ++ [insertRec rest ty fresh] }

/-- `root = {"name": "/", "children": [], "path": ""}`. -/
def rootNode : TreeNode :=
  { name := "/".toList, path := [], isFile := false, summary := none, children := [] }

/-- `build_hierarchy` from `main.py`. -/
def build_hierarchy (items : List BlobRecord) : TreeNode :=
  items.foldl (fun node item => insertRec (pySplit '/' item.path) item.type node) rootNode

/-- Walk the tree along a list of name segments using the same
first-match-by-name lookup as `insertRec`. -/
def getNode : List Str → TreeNode → Option TreeNode
  | [], t => some t
  | p :: rest, t =>
    match findNamed t.children p with
    | some c => getNode rest c
    | none => none

/-!
## `sort_tree`

Python: `node["children"].sort(key=lambda x: (not x.get("isFile", False), x["name"]))`,
then recurse into each child.  `list.sort` is a stable sort, and the output of
a stable sort is uniquely determined by the key order, so it is modelled by
Mathlib's (stable, structurally recursive) insertion sort under the total
preorder induced by the Python key `(not isFile, name)` — note `False < True`
in Python, so nodes with `isFile = True` sort FIRST under this key.
Tree recursion is driven by a `sizeOf` fuel so the function stays
kernel-computable; `sort_tree_eq` is the defining equation.
-/

/-- `key(x) <= key(y)` for the Python sort key `(not isFile, name)`,
comparing tuples lexicographically with `False < True` and strings by
code point. -/
def strLe : Str → Str → Bool
  | [], _ => true
  | _ :: _, [] => false
  | a :: as, b :: bs =>
    if a.toNat < b.toNat then true
    else if b.toNat < a.toNat then false
    else strLe as bs

def nodeLe (x y : TreeNode) : Bool :=
  (x.isFile && !y.isFile) || ((x.isFile == y.isFile) && strLe x.name y.name)

/-- The stable sort of a children list by the Python key. -/
def pySortChildren (cs : List TreeNode) : List TreeNode :=
  List.insertionSort (fun x y => nodeLe x y = true) cs

mutual
/-- Number of nodes of a tree: the fuel measure driving `sortTreeAux`. -/
def nodeSize : TreeNode → Nat
  | ⟨_, _, _, _, cs⟩ => 1 + nodeSizeL cs
def nodeSizeL : List TreeNode → Nat
  | [] => 0
  | c :: cs => nodeSize c + nodeSizeL cs
end

def sortTreeAux : Nat → TreeNode → TreeNode
  | 0, t => t
  | fuel + 1, t => { t with children := (pySortChildren t.children).map (sortTreeAux fuel) }

def sort_tree (t : TreeNode) : TreeNode := sortTreeAux (nodeSize t) t

/-!
## `fetch_text`, `get_groq_response`, `generate_summaries`, `collect_summaries`

Network responses are abstracted as environment functions giving each
request's status and body; the code under test is everything done with them.
-/

/-- Response of one GET issued by `fetch_text`: status and body text. -/
abbrev RawEnv := Str → Nat × Str

/-- `fetch_text`: `None` unless the status is exactly 200, else the body. -/
def fetch_text (raw : RawEnv) (url : Str) : Option Str :=
  if (raw url).1 ≠ 200 then none else some (raw url).2

structure ChatMsg where
  role : Str
  content : Str

/-- What the Groq chat-completions endpoint sends back for a message list:
HTTP status, raw body text, the parsed `data["choices"][0]["message"]["content"]`
when those keys exist, and the `json.dumps(data)` fallback text. -/
structure GroqResp where
  status : Nat
  text : Str
  content : Option Str
  dumped : Str

abbrev GroqEnv := List ChatMsg → GroqResp

def groqSentinel : Str := "GROQ API key not configured (server).".toList

/-- `get_groq_response` from `main.py`.  `if not GROQ_API_KEY` is true for an
unset (`none`) or empty key. -/
def get_groq_response (key : Option Str) (groq : GroqEnv) (messages : List ChatMsg) : Str :=
  match key with
  | none => groqSentinel
  | some k =>
    if k = [] then groqSentinel
    else
      let r := groq messages
      if r.status ≠ 200 then
        "Error generating response: ".toList ++ (toString r.status).toList
          ++ " - ".toList ++ r.text.take 400
      else
        match r.content with
        | some c => c
        | none => r.dumped.take 1000

def cantFetchMsg : Str := "Could not fetch file content.".toList

def rawUrl (owner repo sha path : Str) : Str :=
  "https://raw.githubusercontent.com/".toList ++ owner ++ '/' :: repo ++ '/' :: sha ++ '/' :: path

def promptFor (path txt : Str) : Str :=
  ("Provide a concise summary of this code file for software engineers. "
    ++ "Highlight key functions, imports, and architecture. File: ").toList
    ++ path ++ '\n' :: '\n' :: txt

mutual
/-- `generate_summaries` from `main.py`, as a function from the tree to the
tree it leaves behind once every spawned task has completed (`asyncio.gather`
waits for all children; each task mutates only its own node, so the final
tree does not depend on the interleaving).  For a file node the fetched text
is truthy only when non-`None` and non-empty. -/
def generate_summaries (key : Option Str) (groq : GroqEnv) (raw : RawEnv)
    (owner repo branch_sha : Str) : TreeNode → TreeNode
  | ⟨n, p, f, sm, cs⟩ =>
    if f then
      let txtO := fetch_text raw (rawUrl owner repo branch_sha p)
      let newSummary : Str :=
        match txtO with
        | some txt =>
          if txt = [] then cantFetchMsg
          else get_groq_response key groq [⟨"user".toList, promptFor p txt⟩]
        | none => cantFetchMsg
      ⟨n, p, f, some newSummary, cs⟩
    else
      ⟨n, p, f, sm, genSummariesL key groq raw owner repo branch_sha cs⟩

def genSummariesL (key : Option Str) (groq : GroqEnv) (raw : RawEnv)
    (owner repo branch_sha : Str) : List TreeNode → List TreeNode
  | [] => []
  | c :: cs =>
    generate_summaries key groq raw owner repo branch_sha c
      :: genSummariesL key groq raw owner repo branch_sha cs
end

def fileLine (p : Str) (sm : Option Str) : Str :=
  "File: ".toList ++ p ++ '\n' :: "Summary: ".toList ++ sm.getD "N/A".toList ++ '\n' :: []

mutual
/-- The `traverse` helper of `collect_summaries`: append a line for every
file node, then visit the children (also for file nodes). -/
def summaryLines : TreeNode → List Str
  | ⟨_, p, f, sm, cs⟩ => (if f then [fileLine p sm] else []) ++ summaryLinesL cs
def summaryLinesL : List TreeNode → List Str
  | [] => []
  | c :: cs => summaryLines c ++ summaryLinesL cs
end

/-- `collect_summaries`: `"\n".join(summaries)`. -/
def collect_summaries (t : TreeNode) : Str :=
  List.intercalate ('\n' :: []) (summaryLines t)

/-!
## `fetch_json` and the `/api/repo` endpoint

One upstream GET is a status, a raw body text and — when the call succeeds —
the parsed values the handler reads out of the JSON.  Missing-key lookups
(`ref["object"]["sha"]`, `commit_obj["tree"]["sha"]`) are modelled as `none`
payloads: in Python they raise `KeyError`, which the handler's generic
`except Exception` turns into a 500.  `repo_meta.get("default_branch","main")`
and `tree_resp.get("tree", [])` never raise, so their payloads carry the
defaulted value directly.
-/

structure HttpJson (α : Type) where
  status : Nat
  text : Str
  payload : α

/-- `f"HTTP {response.status} from {url}: {text[:300]}"`. -/
def httpDetail (url : Str) (status : Nat) (text : Str) : Str :=
  "HTTP ".toList ++ (toString status).toList ++ " from ".toList ++ url
    ++ ": ".toList ++ text.take 300

/-- `fetch_json`: raise `HTTPException(status, f"HTTP {status} from {url}: {text[:300]}")`
when the status is ≥ 400, else return the parsed body. -/
def fetch_json {α : Type} (url : Str) (r : HttpJson α) : Except (Nat × Str) α :=
  if 400 ≤ r.status then .error (r.status, httpDetail url r.status r.text)
  else .ok r.payload

structure TreeEntry where
  path : Str
  type : Str

structure Upstream where
  /-- `GET /repos/{owner}/{repo}` — payload: `default_branch` if present. -/
  repoMeta : HttpJson (Option Str)
  /-- `GET .../git/refs/heads/{branch}` — payload: `["object"]["sha"]` if present. -/
  refResp : HttpJson (Option Str)
  /-- `GET .../git/commits/{sha}` — payload: `["tree"]["sha"]` if present. -/
  commitResp : HttpJson (Option Str)
  /-- `GET .../git/trees/{sha}?recursive=1` — payload: `.get("tree", [])`. -/
  treeResp : HttpJson (List TreeEntry)
  /-- raw.githubusercontent.com responses, per URL (call 5 / `fetch_text`). -/
  raw : RawEnv
  /-- `GROQ_API_KEY`. -/
  key : Option Str
  /-- Groq chat-completion responses, per message list. -/
  groq : GroqEnv

inductive RepoResult where
  | ok (tree : TreeNode) (summaries : Str) (repo : Str) (fileCount : Nat)
  | err (status : Nat) (detail : Str)

def RepoResult.status : RepoResult → Nat
  | .ok _ _ _ _ => 200
  | .err s _ => s

def RepoResult.detail : RepoResult → Str
  | .ok _ _ _ _ => []
  | .err _ d => d

def RepoResult.isOk : RepoResult → Bool
  | .ok _ _ _ _ => true
  | .err _ _ => false

def RepoResult.tree : RepoResult → TreeNode
  | .ok t _ _ _ => t
  | .err _ _ => rootNode

def RepoResult.fileCount : RepoResult → Nat
  | .ok _ _ _ n => n
  | .err _ _ => 0

def apiRepoUrl (owner repo : Str) : Str :=
  "https://api.github.com/repos/".toList ++ owner ++ '/' :: repo

def refsUrl (owner repo branch : Str) : Str :=
  apiRepoUrl owner repo ++ "/git/refs/heads/".toList ++ branch

def commitUrl (owner repo sha : Str) : Str :=
  apiRepoUrl owner repo ++ "/git/commits/".toList ++ sha

def treesUrl (owner repo sha : Str) : Str :=
  apiRepoUrl owner repo ++ "/git/trees/".toList ++ sha ++ "?recursive=1".toList

/-- Stand-in for `str(e)` of the `KeyError` raised by a missing
`["object"]["sha"]` / `["tree"]["sha"]` lookup. -/
def keyErrMsg : Str := "KeyError".toList

/-- `GET /api/repo` (`get_repo` in `main.py`): parse the URL (400 on failure),
run the four metadata calls in order — a raised `HTTPException` is re-raised
unchanged (`except HTTPException as e: raise e`), any other exception becomes
a 500 — then build, summarize and sort the tree and answer 200. -/
def get_repo (url : Str) (env : Upstream) : RepoResult :=
  match parse_github_url url with
  | none => .err 400 "Invalid GitHub URL".toList
  | some (owner, repo) =>
    match fetch_json (apiRepoUrl owner repo) env.repoMeta with
    | .error (s, d) => .err s d
    | .ok branchOpt =>
      let default_branch := branchOpt.getD "main".toList
      match fetch_json (refsUrl owner repo default_branch) env.refResp with
      | .error (s, d) => .err s d
      | .ok shaOpt =>
        match shaOpt with
        | none => .err 500 keyErrMsg
        | some commit_sha =>
          match fetch_json (commitUrl owner repo commit_sha) env.commitResp with
          | .error (s, d) => .err s d
          | .ok treeShaOpt =>
            match treeShaOpt with
            | none => .err 500 keyErrMsg
            | some tree_sha =>
              match fetch_json (treesUrl owner repo tree_sha) env.treeResp with
              | .error (s, d) => .err s d
              | .ok entries =>
                let blobs := (entries.filter
                    (fun t => t.type == "blob".toList || t.type == "tree".toList)).map
                  (fun t => BlobRecord.mk t.path t.type)
                let root := build_hierarchy blobs
                let root := generate_summaries env.key env.groq env.raw owner repo tree_sha root
                let root := sort_tree root
                .ok root (collect_summaries root) (owner ++ '/' :: repo) blobs.length

/-!
## Claim-shaped property checkers
-/

/-- Pair condition of C1 as written: a child with `isFile=true` may not occur
before a child with `isFile=false` (directories first), and within a group
names are non-decreasing. `a` is the earlier child. -/
def pairDirsFirst (a b : TreeNode) : Bool :=
  !(a.isFile && !b.isFile) && (a.isFile != b.isFile || strLe a.name b.name)

/-- Pair condition matching the code: a child with `isFile=false` may not
occur before a child with `isFile=true` (files first), and within a group
names are non-decreasing. -/
def pairFilesFirst (a b : TreeNode) : Bool :=
  !(!a.isFile && b.isFile) && (a.isFile != b.isFile || strLe a.name b.name)

/-- Every ordered pair of list elements satisfies `p`. -/
def pairsOk (p : TreeNode → TreeNode → Bool) : List TreeNode → Bool
  | [] => true
  | x :: xs => xs.all (p x) && pairsOk p xs

mutual
/-- `p` holds for every ordered pair of children, at every node of the tree. -/
def treeOrdered (p : TreeNode → TreeNode → Bool) : TreeNode → Bool
  | ⟨_, _, _, _, cs⟩ => pairsOk p cs && treeOrderedL p cs
def treeOrderedL (p : TreeNode → TreeNode → Bool) : List TreeNode → Bool
  | [] => true
  | c :: cs => treeOrdered p c && treeOrderedL p cs
end

mutual
/-- C3's invariant: every node with `isFile = true` has no children. -/
def filesChildless : TreeNode → Bool
  | ⟨_, _, f, _, cs⟩ => (!f || cs.isEmpty) && filesChildlessL cs
def filesChildlessL : List TreeNode → Bool
  | [] => true
  | c :: cs => filesChildless c && filesChildlessL cs
end

mutual
/-- Number of file nodes (`isFile = true`) in a tree. -/
def countFiles : TreeNode → Nat
  | ⟨_, _, f, _, cs⟩ => (if f then 1 else 0) + countFilesL cs
def countFilesL : List TreeNode → Nat
  | [] => 0
  | c :: cs => countFiles c + countFilesL cs
end

/-- Path segments of a record, as `build_hierarchy` splits them. -/
def segsOf (r : BlobRecord) : List Str := pySplit '/' r.path

/-- No record of type `"blob"` has a segment path that is a proper prefix of
another record's segment path. -/
def noBlobProperPre (items : List BlobRecord) : Bool :=
  items.all fun r =>
    !(r.type == "blob".toList) ||
      items.all fun r2 =>
        !(List.isPrefixOf (segsOf r) (segsOf r2) && !(segsOf r == segsOf r2))

-- sanity checks of the model on the spec's own examples
example :
    build_hierarchy [⟨"a/b.txt".toList, "blob".toList⟩, ⟨"a/c.txt".toList, "blob".toList⟩] =
      ⟨"/".toList, [], false, none,
        [⟨"a".toList, "a".toList, false, none,
          [⟨"b.txt".toList, "a/b.txt".toList, true, none, []⟩,
           ⟨"c.txt".toList, "a/c.txt".toList, true, none, []⟩]⟩]⟩ := by rfl

example :
    filesChildless (build_hierarchy
      [⟨"a".toList, "blob".toList⟩, ⟨"a/b.txt".toList, "blob".toList⟩]) = false := by rfl

example :
    (sort_tree ⟨"/".toList, [], false, none,
      [⟨"z".toList, "z".toList, false, none, []⟩,
       ⟨"a".toList, "a".toList, true, none, []⟩,
       ⟨"b".toList, "b".toList, false, none, []⟩]⟩).children.map TreeNode.name =
    ["a".toList, "b".toList, "z".toList] := by rfl

example :
    treeOrdered pairDirsFirst (sort_tree ⟨"/".toList, [], false, none,
      [⟨"z".toList, "z".toList, false, none, []⟩,
       ⟨"a".toList, "a".toList, true, none, []⟩]⟩) = false := by rfl

/-!
## Lemmas about `sort_tree`
-/

theorem nodeSize_le_of_mem {c : TreeNode} : ∀ {cs : List TreeNode}, c ∈ cs → nodeSize c ≤ nodeSizeL cs
  | _ :: cs, h => by
    rcases List.mem_cons.mp h with h | h
    · subst h; simp only [nodeSizeL]; omega
    · have := nodeSize_le_of_mem h
      simp only [nodeSizeL]; omega

theorem nodeSize_pos (t : TreeNode) : 1 ≤ nodeSize t := by
  cases t; simp only [nodeSize]; omega

theorem nodeSize_lt_of_mem_children {c t : TreeNode} (h : c ∈ t.children) :
    nodeSize c < nodeSize t := by
  cases t with
  | mk n p f sm cs =>
    have h' : c ∈ cs := h
    have := nodeSize_le_of_mem h'
    simp only [nodeSize]; omega

theorem mem_pySortChildren {c : TreeNode} {cs : List TreeNode} :
    c ∈ pySortChildren cs → c ∈ cs := by
  intro h
  simpa [pySortChildren] using (List.mem_insertionSort _).mp h

theorem sortTreeAux_fuel :
    ∀ fuel t, nodeSize t ≤ fuel → sortTreeAux fuel t = sort_tree t := by
  intro fuel
  induction fuel using Nat.strong_induction_on with
  | _ fuel ih =>
    intro t ht
    cases fuel with
    | zero => exact absurd ht (by have := nodeSize_pos t; omega)
    | succ m =>
      obtain ⟨k, hk⟩ : ∃ k, nodeSize t = k + 1 :=
        ⟨nodeSize t - 1, by have := nodeSize_pos t; omega⟩
      show sortTreeAux (m+1) t = sortTreeAux (nodeSize t) t
      rw [hk]
      cases t with
      | mk n p f sm cs =>
        show TreeNode.mk n p f sm ((pySortChildren cs).map (sortTreeAux m))
          = TreeNode.mk n p f sm ((pySortChildren cs).map (sortTreeAux k))
        have harg : ∀ c ∈ pySortChildren cs,
            sortTreeAux m c = sortTreeAux k c := by
          intro c hc
          have hmem : c ∈ cs := mem_pySortChildren hc
          have hlt : nodeSize c < nodeSize (TreeNode.mk n p f sm cs) :=
            nodeSize_lt_of_mem_children hmem
          rw [hk] at hlt
          have h1 : sortTreeAux m c = sort_tree c := by
            apply ih m (by omega)
            have : nodeSize (TreeNode.mk n p f sm cs) ≤ m + 1 := ht
            rw [hk] at this; omega
          have h2 : sortTreeAux k c = sort_tree c := by
            apply ih k _ c (by omega)
            have : nodeSize (TreeNode.mk n p f sm cs) ≤ m + 1 := ht
            rw [hk] at this; omega
          rw [h1, h2]
        exact congrArg (TreeNode.mk n p f sm) (List.map_congr_left harg)

/-- The defining equation of `sort_tree`: sort the children by the Python
key, then sort each child recursively. -/
theorem sort_tree_eq (t : TreeNode) :
    sort_tree t = { t with children := (pySortChildren t.children).map sort_tree } := by
  show sortTreeAux (nodeSize t) t = _
  obtain ⟨k, hk⟩ : ∃ k, nodeSize t = k + 1 :=
    ⟨nodeSize t - 1, by have := nodeSize_pos t; omega⟩
  rw [hk]
  cases t with
  | mk n p f sm cs =>
    show TreeNode.mk n p f sm ((pySortChildren cs).map (sortTreeAux k))
      = TreeNode.mk n p f sm ((pySortChildren cs).map sort_tree)
    refine congrArg (TreeNode.mk n p f sm) (List.map_congr_left ?_)
    intro c hc
    apply sortTreeAux_fuel
    have hlt : nodeSize c < nodeSize (TreeNode.mk n p f sm cs) :=
      nodeSize_lt_of_mem_children (mem_pySortChildren hc)
    rw [hk] at hlt; omega

theorem sort_tree_isFile (t : TreeNode) : (sort_tree t).isFile = t.isFile := by
  rw [sort_tree_eq]

theorem sort_tree_name (t : TreeNode) : (sort_tree t).name = t.name := by
  rw [sort_tree_eq]

theorem strLe_total : ∀ x y : Str, strLe x y = true ∨ strLe y x = true
  | [], _ => .inl rfl
  | _ :: _, [] => .inr rfl
  | a :: as, b :: bs => by
    simp only [strLe]
    rcases Nat.lt_trichotomy a.toNat b.toNat with h | h | h
    · left; simp [h]
    · have h' : ¬ a.toNat < b.toNat := by omega
      have h'' : ¬ b.toNat < a.toNat := by omega
      rcases strLe_total as bs with ih | ih
      · left; simp [h', h'', ih]
      · right; simp [h', h'', ih]
    · right; simp [h]

theorem strLe_cons_iff {a b : Char} {as bs : Str} :
    strLe (a :: as) (b :: bs) = true ↔
      (a.toNat < b.toNat ∨ (a.toNat = b.toNat ∧ strLe as bs = true)) := by
  simp only [strLe]
  split_ifs with h1 h2
  · exact ⟨fun _ => Or.inl h1, fun _ => rfl⟩
  · constructor
    · intro h; exact absurd h (by simp)
    · rintro (h | ⟨h, _⟩) <;> omega
  · constructor
    · intro h; exact Or.inr ⟨by omega, h⟩
    · rintro (h | ⟨_, h⟩)
      · exact absurd h h1
      · exact h

theorem strLe_trans : ∀ {x y z : Str}, strLe x y = true → strLe y z = true → strLe x z = true
  | [], _, _, _, _ => rfl
  | a :: as, [], _, hxy, _ => by simp [strLe] at hxy
  | a :: as, b :: bs, [], _, hyz => by simp [strLe] at hyz
  | a :: as, b :: bs, c :: cs, hxy, hyz => by
    rw [strLe_cons_iff] at hxy hyz ⊢
    rcases hxy with hxy | ⟨hab, hxy⟩
    · rcases hyz with hyz | ⟨hbc, _⟩
      · exact Or.inl (by omega)
      · exact Or.inl (by omega)
    · rcases hyz with hyz | ⟨hbc, hyz⟩
      · exact Or.inl (by omega)
      · exact Or.inr ⟨by omega, strLe_trans hxy hyz⟩

theorem nodeLe_total : ∀ x y : TreeNode, nodeLe x y = true ∨ nodeLe y x = true := by
  intro x y
  cases hx : x.isFile <;> cases hy : y.isFile <;>
    simp [nodeLe, hx, hy] <;> exact strLe_total x.name y.name

theorem nodeLe_trans :
    ∀ {x y z : TreeNode}, nodeLe x y = true → nodeLe y z = true → nodeLe x z = true := by
  intro x y z hxy hyz
  cases hx : x.isFile <;> cases hy : y.isFile <;> cases hz : z.isFile <;>
    simp only [nodeLe, hx, hy, hz] at hxy hyz ⊢ <;>
    simp at hxy hyz ⊢ <;>
    exact strLe_trans hxy hyz

instance nodeLeRel_isTotal : IsTotal TreeNode (fun x y => nodeLe x y = true) :=
  ⟨nodeLe_total⟩

instance nodeLeRel_isTrans : IsTrans TreeNode (fun x y => nodeLe x y = true) :=
  ⟨fun _ _ _ => nodeLe_trans⟩

theorem pairwise_pySortChildren (cs : List TreeNode) :
    List.Pairwise (fun x y => nodeLe x y = true) (pySortChildren cs) :=
  List.sorted_insertionSort _ cs

theorem pairFilesFirst_of_nodeLe {a b : TreeNode} (h : nodeLe a b = true) :
    pairFilesFirst a b = true := by
  cases ha : a.isFile <;> cases hb : b.isFile <;>
    simp only [nodeLe, ha, hb] at h <;>
    simp at h <;>
    simp [pairFilesFirst, ha, hb, h]

theorem pairsOk_of_pairwise {l : List TreeNode}
    (h : List.Pairwise (fun x y => pairFilesFirst x y = true) l) :
    pairsOk pairFilesFirst l = true := by
  induction l with
  | nil => rfl
  | cons x xs ih =>
    rcases List.pairwise_cons.mp h with ⟨hx, hxs⟩
    simp only [pairsOk, Bool.and_eq_true]
    exact ⟨List.all_eq_true.mpr fun b hb => hx b hb, ih hxs⟩

theorem treeOrderedL_eq_all (p : TreeNode → TreeNode → Bool) :
    ∀ l : List TreeNode, treeOrderedL p l = true ↔ ∀ c ∈ l, treeOrdered p c = true
  | [] => by simp [treeOrderedL]
  | c :: cs => by
    simp only [treeOrderedL, Bool.and_eq_true, treeOrderedL_eq_all p cs, List.mem_cons]
    constructor
    · rintro ⟨h1, h2⟩ x (rfl | hx)
      · exact h1
      · exact h2 x hx
    · intro h
      exact ⟨h c (.inl rfl), fun x hx => h x (.inr hx)⟩

theorem nodeLe_sort_tree (a b : TreeNode) :
    nodeLe (sort_tree a) (sort_tree b) = nodeLe a b := by
  simp [nodeLe, sort_tree_isFile, sort_tree_name]

theorem sort_tree_ordered_aux :
    ∀ n t, nodeSize t ≤ n → treeOrdered pairFilesFirst (sort_tree t) = true := by
  intro n
  induction n using Nat.strong_induction_on with
  | _ n ih =>
    intro t ht
    rw [sort_tree_eq]
    cases t with
    | mk nm p f sm cs =>
      show treeOrdered pairFilesFirst ⟨nm, p, f, sm, (pySortChildren cs).map sort_tree⟩ = true
      simp only [treeOrdered, Bool.and_eq_true]
      refine ⟨?_, ?_⟩
      · apply pairsOk_of_pairwise
        have hpw := pairwise_pySortChildren cs
        have hmap : List.Pairwise (fun x y => nodeLe x y = true)
            ((pySortChildren cs).map sort_tree) := by
          refine List.Pairwise.map _ ?_ hpw
          intro a b hab
          rw [nodeLe_sort_tree]; exact hab
        exact hmap.imp (fun h => pairFilesFirst_of_nodeLe h)
      · rw [treeOrderedL_eq_all]
        intro c hc
        rcases List.mem_map.mp hc with ⟨c0, hc0, rfl⟩
        have hlt : nodeSize c0 < nodeSize (TreeNode.mk nm p f sm cs) :=
          nodeSize_lt_of_mem_children (mem_pySortChildren hc0)
        exact ih (nodeSize c0) (by omega) c0 (Nat.le_refl _)

/-- C1 (amended): after `sort_tree` runs, for every node of the tree all
children with `isFile = true` occur BEFORE all children with
`isFile = false` (files before directories — the Python key is
`(not isFile, name)` and `False < True`), and within each of the two groups
the children's names are in non-decreasing lexicographic order. -/
theorem claim_C1_sort_invariant (t : TreeNode) :
    treeOrdered pairFilesFirst (sort_tree t) = true :=
  sort_tree_ordered_aux (nodeSize t) t (Nat.le_refl _)

def c1Tree : TreeNode :=
  ⟨"/".toList, [], false, none,
    [⟨"a".toList, "a".toList, true, none, []⟩,
     ⟨"b".toList, "b".toList, false, none, []⟩]⟩

/-- C1 counterexample: on a root with one file child `a` and one directory
child `b`, `sort_tree` puts the file first, so the claimed
directories-before-files order is violated. -/
theorem claim_C1_counterexample :
    treeOrdered pairDirsFirst (sort_tree c1Tree) = false := by rfl

/-- C9: with no `GROQ_API_KEY` configured, `get_groq_response` returns the
fixed non-empty sentinel string for every message list and every behaviour
of the Groq endpoint — in particular the result does not depend on the
endpoint at all (no network call is consulted), and the total function
never raises. -/
theorem claim_C9_groq_no_key (groq : GroqEnv) (messages : List ChatMsg) :
    get_groq_response none groq messages = groqSentinel ∧ groqSentinel ≠ [] :=
  ⟨rfl, by decide⟩

/-!
## C7: per-file fetch failure handling in `generate_summaries`
-/

theorem genSummariesL_eq_map (key : Option Str) (groq : GroqEnv) (raw : RawEnv)
    (owner repo sha : Str) :
    ∀ cs : List TreeNode,
      genSummariesL key groq raw owner repo sha cs =
        cs.map (generate_summaries key groq raw owner repo sha)
  | [] => rfl
  | c :: cs => by
    simp only [genSummariesL, List.map_cons]
    rw [genSummariesL_eq_map key groq raw owner repo sha cs]

/-- C7: for every file node whose raw-content response has a non-200 status
or an empty body, `fetch_text` returns `None` on the non-200 status, and
`generate_summaries` gives that node the literal summary
`"Could not fetch file content."` — for every `key` and every behaviour of
the LLM endpoint, i.e. without consulting the LLM — while a directory node's
children are each processed independently (each child's result is a function
of that child alone), so no sibling is aborted or affected. -/
theorem claim_C7_fetch_failure (key : Option Str) (groq : GroqEnv) (raw : RawEnv)
    (owner repo sha : Str) (t d : TreeNode)
    (hf : t.isFile = true)
    (hfail : (raw (rawUrl owner repo sha t.path)).1 ≠ 200 ∨
             (raw (rawUrl owner repo sha t.path)).2 = [])
    (hd : d.isFile = false) :
    ((raw (rawUrl owner repo sha t.path)).1 ≠ 200 →
        fetch_text raw (rawUrl owner repo sha t.path) = none) ∧
    generate_summaries key groq raw owner repo sha t =
      { t with summary := some cantFetchMsg } ∧
    (generate_summaries key groq raw owner repo sha d).children =
      d.children.map (generate_summaries key groq raw owner repo sha) := by
  refine ⟨fun h => by simp [fetch_text, h], ?_, ?_⟩
  · cases t with
    | mk n p f sm cs =>
      cases f with
      | false => simp at hf
      | true =>
        by_cases hst : (raw (rawUrl owner repo sha p)).1 = 200
        · have hbody : (raw (rawUrl owner repo sha p)).2 = [] := by
            rcases hfail with h | h
            · exact absurd hst h
            · exact h
          simp [generate_summaries, fetch_text, hst, hbody]
        · simp [generate_summaries, fetch_text, hst]
  · cases d with
    | mk n p f sm cs =>
      cases f with
      | true => simp at hd
      | false =>
        show (TreeNode.mk n p false sm
          (genSummariesL key groq raw owner repo sha cs)).children = _
        exact genSummariesL_eq_map key groq raw owner repo sha cs

def c7raw : RawEnv := fun _ => (404, [])
def c7groq : GroqEnv := fun _ => ⟨200, [], some "x".toList, []⟩
def c7file : TreeNode := ⟨"a".toList, "a".toList, true, none, []⟩

theorem claim_C7_witness :
    generate_summaries none c7groq c7raw "o".toList "r".toList "s".toList c7file =
      { c7file with summary := some cantFetchMsg } :=
  (claim_C7_fetch_failure none c7groq c7raw "o".toList "r".toList "s".toList
    c7file rootNode rfl (Or.inl (by decide)) rfl).2.1

/-!
## C4 / C5: response statuses of `GET /api/repo`
-/

theorem take_suffix_httpDetail (url : Str) (st : Nat) (text : Str) :
    text.take 300 <:+ httpDetail url st text :=
  ⟨"HTTP ".toList ++ (toString st).toList ++ " from ".toList ++ url ++ ": ".toList, rfl⟩

/-- C4 (amended): the status answered by `GET /api/repo` is 200 on success,
400 for an invalid URL, 500 for an internal error (e.g. a missing key in an
upstream JSON body), or — because `except HTTPException as e: raise e`
re-raises the upstream error unchanged — the failing metadata call's own
status (≥ 400), e.g. an upstream 404 surfaces as 404, not as 500. -/
theorem claim_C4_status_set (url : Str) (env : Upstream) :
    (get_repo url env).status = 200 ∨
    (get_repo url env).status = 400 ∨
    (get_repo url env).status = 500 ∨
    (400 ≤ (get_repo url env).status ∧
      ((get_repo url env).status = env.repoMeta.status ∨
       (get_repo url env).status = env.refResp.status ∨
       (get_repo url env).status = env.commitResp.status ∨
       (get_repo url env).status = env.treeResp.status)) := by
  unfold get_repo
  cases hp : parse_github_url url with
  | none => right; left; rfl
  | some pr =>
    obtain ⟨owner, repo⟩ := pr
    by_cases h1 : 400 ≤ env.repoMeta.status
    · simp only [fetch_json, if_pos h1]
      right; right; right
      exact ⟨h1, Or.inl rfl⟩
    · simp only [fetch_json, if_neg h1]
      by_cases h2 : 400 ≤ env.refResp.status
      · simp only [if_pos h2]
        right; right; right
        exact ⟨h2, Or.inr (Or.inl rfl)⟩
      · simp only [if_neg h2]
        cases hsha : env.refResp.payload with
        | none => right; right; left; rfl
        | some csha =>
          by_cases h3 : 400 ≤ env.commitResp.status
          · simp only [if_pos h3]
            right; right; right
            exact ⟨h3, Or.inr (Or.inr (Or.inl rfl))⟩
          · simp only [if_neg h3]
            cases htsha : env.commitResp.payload with
            | none => right; right; left; rfl
            | some tsha =>
              by_cases h4 : 400 ≤ env.treeResp.status
              · simp only [if_pos h4]
                right; right; right
                exact ⟨h4, Or.inr (Or.inr (Or.inr rfl))⟩
              · simp only [if_neg h4]
                left; rfl

def c4env : Upstream :=
  { repoMeta := ⟨404, "Not Found".toList, some "main".toList⟩,
    refResp := ⟨200, [], some "csha".toList⟩,
    commitResp := ⟨200, [], some "tsha".toList⟩,
    treeResp := ⟨200, [], []⟩,
    raw := fun _ => (200, "x".toList),
    key := none,
    groq := fun _ => ⟨200, [], some [], []⟩ }

/-- C4 counterexample: an upstream 404 on the repository-metadata call is
answered as 404 — not 500 — so the claimed status set {200, 400, 500} is
wrong. -/
theorem claim_C4_counterexample :
    (get_repo "https://github.com/a/b".toList c4env).status = 404 ∧
    ¬ ((get_repo "https://github.com/a/b".toList c4env).status = 200 ∨
       (get_repo "https://github.com/a/b".toList c4env).status = 400 ∨
       (get_repo "https://github.com/a/b".toList c4env).status = 500) := by
  decide

/-- C5: if one of the four metadata calls is the first to answer with status
≥ 400, the whole `/api/repo` request fails with exactly that upstream status
and a detail that ends with the first 300 characters of the upstream body;
and when all four metadata calls succeed, the request answers 200 regardless
of the raw-content responses `env.raw` (and of the LLM behaviour), i.e. a
failing per-file fetch (call 5) never fails the request. -/
theorem claim_C5_metadata_failures (url : Str) (env : Upstream)
    (owner repo : Str) (hp : parse_github_url url = some (owner, repo)) :
    (400 ≤ env.repoMeta.status →
      get_repo url env = .err env.repoMeta.status
          (httpDetail (apiRepoUrl owner repo) env.repoMeta.status env.repoMeta.text) ∧
      env.repoMeta.text.take 300 <:+ (get_repo url env).detail) ∧
    (env.repoMeta.status < 400 → 400 ≤ env.refResp.status →
      get_repo url env = .err env.refResp.status
          (httpDetail (refsUrl owner repo (env.repoMeta.payload.getD "main".toList))
            env.refResp.status env.refResp.text) ∧
      env.refResp.text.take 300 <:+ (get_repo url env).detail) ∧
    (∀ csha, env.repoMeta.status < 400 → env.refResp.status < 400 →
      env.refResp.payload = some csha → 400 ≤ env.commitResp.status →
      get_repo url env = .err env.commitResp.status
          (httpDetail (commitUrl owner repo csha) env.commitResp.status env.commitResp.text) ∧
      env.commitResp.text.take 300 <:+ (get_repo url env).detail) ∧
    (∀ csha tsha, env.repoMeta.status < 400 → env.refResp.status < 400 →
      env.refResp.payload = some csha → env.commitResp.status < 400 →
      env.commitResp.payload = some tsha → 400 ≤ env.treeResp.status →
      get_repo url env = .err env.treeResp.status
          (httpDetail (treesUrl owner repo tsha) env.treeResp.status env.treeResp.text) ∧
      env.treeResp.text.take 300 <:+ (get_repo url env).detail) ∧
    (∀ csha tsha, env.repoMeta.status < 400 → env.refResp.status < 400 →
      env.refResp.payload = some csha → env.commitResp.status < 400 →
      env.commitResp.payload = some tsha → env.treeResp.status < 400 →
      (get_repo url env).isOk = true) := by
  refine ⟨?_, ?_, ?_, ?_, ?_⟩
  · intro h1
    have heq : get_repo url env = .err env.repoMeta.status
        (httpDetail (apiRepoUrl owner repo) env.repoMeta.status env.repoMeta.text) := by
      unfold get_repo
      rw [hp]
      simp only [fetch_json, if_pos h1]
    rw [heq]
    exact ⟨rfl, take_suffix_httpDetail _ _ _⟩
  · intro h1 h2
    have h1' : ¬ 400 ≤ env.repoMeta.status := by omega
    have heq : get_repo url env = .err env.refResp.status
        (httpDetail (refsUrl owner repo (env.repoMeta.payload.getD "main".toList))
          env.refResp.status env.refResp.text) := by
      unfold get_repo
      rw [hp]
      simp only [fetch_json, if_neg h1', if_pos h2]
    rw [heq]
    exact ⟨rfl, take_suffix_httpDetail _ _ _⟩
  · intro csha h1 h2 hsha h3
    have h1' : ¬ 400 ≤ env.repoMeta.status := by omega
    have h2' : ¬ 400 ≤ env.refResp.status := by omega
    have heq : get_repo url env = .err env.commitResp.status
        (httpDetail (commitUrl owner repo csha) env.commitResp.status env.commitResp.text) := by
      unfold get_repo
      rw [hp]
      simp only [fetch_json, if_neg h1', if_neg h2', hsha, if_pos h3]
    rw [heq]
    exact ⟨rfl, take_suffix_httpDetail _ _ _⟩
  · intro csha tsha h1 h2 hsha h3 htsha h4
    have h1' : ¬ 400 ≤ env.repoMeta.status := by omega
    have h2' : ¬ 400 ≤ env.refResp.status := by omega
    have h3' : ¬ 400 ≤ env.commitResp.status := by omega
    have heq : get_repo url env = .err env.treeResp.status
        (httpDetail (treesUrl owner repo tsha) env.treeResp.status env.treeResp.text) := by
      unfold get_repo
      rw [hp]
      simp only [fetch_json, if_neg h1', if_neg h2', hsha, if_neg h3', htsha, if_pos h4]
    rw [heq]
    exact ⟨rfl, take_suffix_httpDetail _ _ _⟩
  · intro csha tsha h1 h2 hsha h3 htsha h4
    have h1' : ¬ 400 ≤ env.repoMeta.status := by omega
    have h2' : ¬ 400 ≤ env.refResp.status := by omega
    have h3' : ¬ 400 ≤ env.commitResp.status := by omega
    have h4' : ¬ 400 ≤ env.treeResp.status := by omega
    unfold get_repo
    rw [hp]
    simp only [fetch_json, if_neg h1', if_neg h2', hsha, if_neg h3', htsha, if_neg h4']
    rfl

def c5env : Upstream :=
  { repoMeta := ⟨403, "rate limited".toList, none⟩,
    refResp := ⟨200, [], some "csha".toList⟩,
    commitResp := ⟨200, [], some "tsha".toList⟩,
    treeResp := ⟨200, [], []⟩,
    raw := fun _ => (500, []),
    key := none,
    groq := fun _ => ⟨200, [], some [], []⟩ }

theorem claim_C5_witness :
    (400 ≤ c5env.repoMeta.status) ∧
    (get_repo "https://github.com/a/b".toList c5env =
        .err c5env.repoMeta.status
          (httpDetail (apiRepoUrl "a".toList "b".toList)
            c5env.repoMeta.status c5env.repoMeta.text) ∧
      c5env.repoMeta.text.take 300 <:+
        (get_repo "https://github.com/a/b".toList c5env).detail) :=
  ⟨by decide,
    (claim_C5_metadata_failures "https://github.com/a/b".toList c5env
      "a".toList "b".toList (by decide)).1 (by decide)⟩

/-!
## C10: `fileCount` counts both blob and tree entries
-/

theorem countFilesL_append : ∀ a b : List TreeNode,
    countFilesL (a ++ b) = countFilesL a + countFilesL b
  | [], b => by simp [countFilesL]
  | c :: cs, b => by
    show countFiles c + countFilesL (cs ++ b)
      = countFiles c + countFilesL cs + countFilesL b
    rw [countFilesL_append cs b]
    omega

theorem countFilesL_eq_sum : ∀ l : List TreeNode, countFilesL l = (l.map countFiles).sum
  | [] => rfl
  | c :: cs => by
    simp only [countFilesL, List.map_cons, List.sum_cons]
    rw [countFilesL_eq_sum cs]

mutual
theorem countFiles_gen (key : Option Str) (groq : GroqEnv) (raw : RawEnv)
    (owner repo sha : Str) :
    ∀ t, countFiles (generate_summaries key groq raw owner repo sha t) = countFiles t
  | ⟨n, p, f, sm, cs⟩ => by
    cases f with
    | true => rfl
    | false =>
      show countFiles ⟨n, p, false, sm, genSummariesL key groq raw owner repo sha cs⟩ = _
      simp only [countFiles]
      rw [countFilesL_gen key groq raw owner repo sha cs]
theorem countFilesL_gen (key : Option Str) (groq : GroqEnv) (raw : RawEnv)
    (owner repo sha : Str) :
    ∀ cs, countFilesL (genSummariesL key groq raw owner repo sha cs) = countFilesL cs
  | [] => rfl
  | c :: cs => by
    simp only [genSummariesL, countFilesL]
    rw [countFiles_gen key groq raw owner repo sha c,
      countFilesL_gen key groq raw owner repo sha cs]
end

theorem countFiles_sort_aux :
    ∀ n t, nodeSize t ≤ n → countFiles (sort_tree t) = countFiles t := by
  intro n
  induction n using Nat.strong_induction_on with
  | _ n ih =>
    intro t ht
    rw [sort_tree_eq]
    cases t with
    | mk nm p f sm cs =>
      show countFiles ⟨nm, p, f, sm, (pySortChildren cs).map sort_tree⟩ = _
      simp only [countFiles]
      rw [countFilesL_eq_sum, countFilesL_eq_sum, List.map_map]
      have hmap : (pySortChildren cs).map (countFiles ∘ sort_tree)
          = (pySortChildren cs).map countFiles := by
        apply List.map_congr_left
        intro c hc
        have hlt : nodeSize c < nodeSize (TreeNode.mk nm p f sm cs) :=
          nodeSize_lt_of_mem_children (mem_pySortChildren hc)
        exact ih (nodeSize c) (by omega) c (Nat.le_refl _)
      rw [hmap]
      have hperm : List.Perm (pySortChildren cs) cs := List.perm_insertionSort _ cs
      rw [(hperm.map countFiles).sum_eq]

theorem countFiles_sort_tree (t : TreeNode) : countFiles (sort_tree t) = countFiles t :=
  countFiles_sort_aux (nodeSize t) t (Nat.le_refl _)

theorem findNamed_cons (x : TreeNode) (xs : List TreeNode) (nm : Str) :
    findNamed (x :: xs) nm =
      if (x.name == nm) = true then some x else findNamed xs nm := by
  by_cases hx : (x.name == nm) = true <;>
    simp [findNamed, List.find?, hx]

theorem findNamed_split :
    ∀ {l : List TreeNode} {p : Str} {c : TreeNode}, findNamed l p = some c →
      ∃ l1 l2, l = l1 ++ c :: l2 ∧ (∀ x ∈ l1, (x.name == p) = false) ∧
        ∀ c', replaceNamed l p c' = l1 ++ c' :: l2 := by
  intro l
  induction l with
  | nil => intro p c h; simp [findNamed] at h
  | cons x xs ih =>
    intro p c h
    rw [findNamed_cons] at h
    by_cases hx : (x.name == p) = true
    · rw [if_pos hx] at h
      have hceq : x = c := Option.some.inj h
      subst hceq
      exact ⟨[], xs, rfl, by simp, fun c' => by simp [replaceNamed, hx]⟩
    · rw [if_neg hx] at h
      obtain ⟨l1, l2, hl, hfail, hrepl⟩ := ih h
      refine ⟨x :: l1, l2, by rw [hl]; rfl, ?_, fun c' => ?_⟩
      · intro y hy
        rcases List.mem_cons.mp hy with rfl | hy
        · simpa using hx
        · exact hfail y hy
      · simp [replaceNamed, hx, hrepl c']

theorem countFiles_insertRec :
    ∀ (parts : List Str) (ty : Str) (t : TreeNode),
      countFiles (insertRec parts ty t)
        ≤ countFiles t + (if (ty == "blob".toList) = true then 1 else 0)
  | [], ty, t => by simp [insertRec]
  | p :: rest, ty, t => by
    cases t with
    | mk n pp f sm cs =>
      cases hf : findNamed cs p with
      | some c =>
        obtain ⟨l1, l2, hl, hfail, hrepl⟩ := findNamed_split hf
        have hins : insertRec (p :: rest) ty ⟨n, pp, f, sm, cs⟩
            = ⟨n, pp, f, sm, replaceNamed cs p (insertRec rest ty c)⟩ := by
          simp [insertRec, hf]
        rw [hins, hrepl]
        subst hl
        simp only [countFiles, countFilesL_append, countFilesL]
        have h1 := countFiles_insertRec rest ty c
        omega
      | none =>
        have hins : insertRec (p :: rest) ty ⟨n, pp, f, sm, cs⟩
            = ⟨n, pp, f, sm, cs ++
                [insertRec rest ty
                  ⟨p, childPath pp p, rest.isEmpty && ty == "blob".toList, none, []⟩]⟩ := by
          simp [insertRec, hf]
        rw [hins]
        simp only [countFiles, countFilesL_append, countFilesL]
        have hfresh : countFiles (insertRec rest ty
            ⟨p, childPath pp p, rest.isEmpty && ty == "blob".toList, none, []⟩)
            ≤ (if (ty == "blob".toList) = true then 1 else 0) := by
          cases rest with
          | nil =>
            show countFiles ⟨p, childPath pp p, List.isEmpty [] && ty == "blob".toList, none, []⟩ ≤ _
            simp only [countFiles, countFilesL, List.isEmpty_nil, Bool.true_and]
            by_cases hb : (ty == "blob".toList) = true <;> simp [hb]
          | cons q rest' =>
            have h1 := countFiles_insertRec (q :: rest') ty
              ⟨p, childPath pp p, List.isEmpty (q :: rest') && ty == "blob".toList, none, []⟩
            simpa [countFiles, countFilesL] using h1
        omega

theorem countFiles_build_le :
    ∀ (items : List BlobRecord) (acc : TreeNode),
      countFiles (items.foldl
          (fun node item => insertRec (pySplit '/' item.path) item.type node) acc)
        ≤ countFiles acc + items.countP (fun r => r.type == "blob".toList)
  | [], acc => by simp
  | i :: is, acc => by
    simp only [List.foldl_cons, List.countP_cons]
    have h1 := countFiles_build_le is (insertRec (pySplit '/' i.path) i.type acc)
    have h2 := countFiles_insertRec (pySplit '/' i.path) i.type acc
    by_cases hb : (i.type == "blob".toList) = true
    · rw [if_pos hb] at h2 ⊢
      omega
    · rw [if_neg hb] at h2 ⊢
      omega

theorem countFiles_build_hierarchy (items : List BlobRecord) :
    countFiles (build_hierarchy items) ≤ items.countP (fun r => r.type == "blob".toList) := by
  have h := countFiles_build_le items rootNode
  simpa [build_hierarchy, rootNode, countFiles, countFilesL] using h

theorem length_filter_blob_tree (l : List TreeEntry) :
    (l.filter (fun t => t.type == "blob".toList || t.type == "tree".toList)).length
      = l.countP (fun t => t.type == "blob".toList)
        + l.countP (fun t => t.type == "tree".toList) := by
  induction l with
  | nil => rfl
  | cons a l ih =>
    rw [List.countP_cons, List.countP_cons]
    by_cases hb : (a.type == "blob".toList) = true
    · have ht : ¬ (a.type == "tree".toList) = true := by
        have heq := eq_of_beq hb
        rw [heq]
        decide
      rw [List.filter_cons_of_pos (by rw [hb]; rfl), List.length_cons, ih,
        if_pos hb, if_neg ht]
      omega
    · by_cases ht : (a.type == "tree".toList) = true
      · rw [List.filter_cons_of_pos (by rw [ht]; simp), List.length_cons, ih,
          if_neg hb, if_pos ht]
        omega
      · have hb' : (a.type == "blob".toList) = false := by simpa using hb
        have ht' : (a.type == "tree".toList) = false := by simpa using ht
        have hbn : a.type ≠ "blob".toList := by
          intro hh; rw [hh] at hb'; simp at hb'
        have htn : a.type ≠ "tree".toList := by
          intro hh; rw [hh] at ht'; simp at ht'
        rw [List.filter_cons_of_neg
            (by
              simp only [Bool.or_eq_true, not_or]
              exact ⟨fun hh => hbn (by simpa using hh), fun hh => htn (by simpa using hh)⟩),
          ih, if_neg hb, if_neg ht]
        omega

/-- C10 (implicit claim): in a 200 response of `/api/repo`, `fileCount` is
the number of listing entries of type `"blob"` or `"tree"` — directories are
counted too — and therefore, whenever the listing contains at least one
`"tree"` entry, `fileCount` strictly exceeds the number of file nodes of the
returned tree. -/
theorem claim_C10_fileCount (url : Str) (env : Upstream)
    (h : (get_repo url env).isOk = true) :
    (get_repo url env).fileCount =
      (env.treeResp.payload.filter
        (fun t => t.type == "blob".toList || t.type == "tree".toList)).length ∧
    (1 ≤ env.treeResp.payload.countP (fun t => t.type == "tree".toList) →
      countFiles (get_repo url env).tree < (get_repo url env).fileCount) := by
  unfold get_repo at h ⊢
  cases hp : parse_github_url url with
  | none =>
    rw [hp] at h
    simp [RepoResult.isOk] at h
  | some pr =>
    obtain ⟨owner, repo⟩ := pr
    rw [hp] at h
    by_cases h1 : 400 ≤ env.repoMeta.status
    · simp only [fetch_json, if_pos h1] at h
      simp [RepoResult.isOk] at h
    · simp only [fetch_json, if_neg h1] at h ⊢
      by_cases h2 : 400 ≤ env.refResp.status
      · simp only [if_pos h2] at h
        simp [RepoResult.isOk] at h
      · simp only [if_neg h2] at h ⊢
        cases hsha : env.refResp.payload with
        | none =>
          rw [hsha] at h
          simp [RepoResult.isOk] at h
        | some csha =>
          rw [hsha] at h
          by_cases h3 : 400 ≤ env.commitResp.status
          · simp only [if_pos h3] at h
            simp [RepoResult.isOk] at h
          · simp only [if_neg h3] at h ⊢
            cases htsha : env.commitResp.payload with
            | none =>
              rw [htsha] at h
              simp [RepoResult.isOk] at h
            | some tsha =>
              rw [htsha] at h
              by_cases h4 : 400 ≤ env.treeResp.status
              · simp only [if_pos h4] at h
                simp [RepoResult.isOk] at h
              · simp only [if_neg h4] at h ⊢
                -- the success branch
                refine ⟨by simp [RepoResult.fileCount, List.length_map], ?_⟩
                intro htree
                simp only [RepoResult.fileCount, RepoResult.tree, List.length_map]
                rw [countFiles_sort_tree, countFiles_gen]
                set filtered := env.treeResp.payload.filter
                  (fun t => t.type == "blob".toList || t.type == "tree".toList) with hfil
                have hbuild := countFiles_build_hierarchy
                  (filtered.map (fun t => BlobRecord.mk t.path t.type))
                have hcpm : (filtered.map (fun t => BlobRecord.mk t.path t.type)).countP
                    (fun r => r.type == "blob".toList)
                    = filtered.countP (fun t => t.type == "blob".toList) := by
                  rw [List.countP_map]
                  exact List.countP_congr (fun x _ => Iff.rfl)
                have hcpf : filtered.countP (fun t => t.type == "blob".toList)
                    = env.treeResp.payload.countP (fun t => t.type == "blob".toList) := by
                  rw [hfil, List.countP_filter]
                  refine List.countP_congr (fun x _ => ?_)
                  simp only [Bool.and_eq_true, Bool.or_eq_true, beq_iff_eq]
                  exact ⟨fun ⟨hh, _⟩ => hh, fun hh => ⟨hh, Or.inl hh⟩⟩
                have hlen := length_filter_blob_tree env.treeResp.payload
                rw [hcpm, hcpf] at hbuild
                rw [← hfil] at hlen
                omega

def c10env : Upstream :=
  { repoMeta := ⟨200, [], some "main".toList⟩,
    refResp := ⟨200, [], some "c".toList⟩,
    commitResp := ⟨200, [], some "t".toList⟩,
    treeResp := ⟨200, [],
      [⟨"a".toList, "tree".toList⟩, ⟨"a/b".toList, "blob".toList⟩]⟩,
    raw := fun _ => (200, "data".toList),
    key := none,
    groq := fun _ => ⟨200, [], some "sum".toList, []⟩ }

theorem claim_C10_witness :
    (get_repo "https://github.com/a/b".toList c10env).isOk = true ∧
    ((get_repo "https://github.com/a/b".toList c10env).fileCount =
      (c10env.treeResp.payload.filter
        (fun t => t.type == "blob".toList || t.type == "tree".toList)).length ∧
    (1 ≤ c10env.treeResp.payload.countP (fun t => t.type == "tree".toList) →
      countFiles (get_repo "https://github.com/a/b".toList c10env).tree <
        (get_repo "https://github.com/a/b".toList c10env).fileCount)) :=
  ⟨by decide, claim_C10_fileCount "https://github.com/a/b".toList c10env (by decide)⟩

/-!
## C8: `build_hierarchy` is idempotent on duplicate paths
-/

theorem findNamed_test : ∀ {l : List TreeNode} {p : Str} {c : TreeNode},
    findNamed l p = some c → (c.name == p) = true := by
  intro l
  induction l with
  | nil => intro p c h; simp [findNamed] at h
  | cons x xs ih =>
    intro p c h
    rw [findNamed_cons] at h
    by_cases hx : (x.name == p) = true
    · rw [if_pos hx] at h
      rw [← Option.some.inj h]
      exact hx
    · rw [if_neg hx] at h
      exact ih h

theorem findNamed_append_none {l : List TreeNode} {p : Str}
    (l' : List TreeNode) (h : findNamed l p = none) :
    findNamed (l ++ l') p = findNamed l' p := by
  induction l with
  | nil => rfl
  | cons x xs ih =>
    rw [findNamed_cons] at h
    by_cases hx : (x.name == p) = true
    · rw [if_pos hx] at h; cases h
    · rw [if_neg hx] at h
      rw [List.cons_append, findNamed_cons, if_neg hx]
      exact ih h

theorem findNamed_append_first {l1 : List TreeNode} (l2 : List TreeNode) {p : Str}
    {c' : TreeNode} (hfail : ∀ x ∈ l1, (x.name == p) = false)
    (hc : (c'.name == p) = true) :
    findNamed (l1 ++ c' :: l2) p = some c' := by
  induction l1 with
  | nil => simp [findNamed_cons, hc]
  | cons x xs ih =>
    rw [List.cons_append, findNamed_cons,
      if_neg (by simp [hfail x (List.mem_cons_self x xs)])]
    exact ih (fun y hy => hfail y (List.mem_cons_of_mem x hy))

theorem findNamed_append_left {l : List TreeNode} {p : Str} {d : TreeNode}
    (l' : List TreeNode) (h : findNamed l p = some d) :
    findNamed (l ++ l') p = some d := by
  induction l with
  | nil => simp [findNamed] at h
  | cons x xs ih =>
    rw [findNamed_cons] at h
    rw [List.cons_append, findNamed_cons]
    by_cases hx : (x.name == p) = true
    · rw [if_pos hx] at h ⊢; exact h
    · rw [if_neg hx] at h ⊢; exact ih h

theorem findNamed_middle_congr {q : Str} {c c' : TreeNode}
    (hname : c'.name = c.name) (hfalse : (c.name == q) = false) :
    ∀ (l1 : List TreeNode) (l2 : List TreeNode),
      findNamed (l1 ++ c' :: l2) q = findNamed (l1 ++ c :: l2) q
  | [], l2 => by
    rw [List.nil_append, List.nil_append, findNamed_cons, findNamed_cons, hname,
      if_neg (by simp [hfalse]), if_neg (by simp [hfalse])]
  | x :: xs, l2 => by
    rw [List.cons_append, List.cons_append, findNamed_cons, findNamed_cons]
    by_cases hx : (x.name == q) = true
    · rw [if_pos hx, if_pos hx]
    · rw [if_neg hx, if_neg hx]
      exact findNamed_middle_congr hname hfalse xs l2

theorem insertRec_name : ∀ (parts : List Str) (ty : Str) (t : TreeNode),
    (insertRec parts ty t).name = t.name
  | [], _, _ => rfl
  | p :: rest, ty, t => by
    cases hf : findNamed t.children p <;> simp [insertRec, hf]

theorem insertRec_path : ∀ (parts : List Str) (ty : Str) (t : TreeNode),
    (insertRec parts ty t).path = t.path
  | [], _, _ => rfl
  | p :: rest, ty, t => by
    cases hf : findNamed t.children p <;> simp [insertRec, hf]

theorem insertRec_isFile : ∀ (parts : List Str) (ty : Str) (t : TreeNode),
    (insertRec parts ty t).isFile = t.isFile
  | [], _, _ => rfl
  | p :: rest, ty, t => by
    cases hf : findNamed t.children p <;> simp [insertRec, hf]

theorem getNode_insertRec_self :
    ∀ (parts : List Str) (ty : Str) (t : TreeNode),
      (getNode parts (insertRec parts ty t)).isSome = true
  | [], _, t => rfl
  | p :: rest, ty, t => by
    cases hf : findNamed t.children p with
    | some c =>
      obtain ⟨l1, l2, hl, hfail, hrepl⟩ := findNamed_split hf
      have hins : insertRec (p :: rest) ty t
          = { t with children := l1 ++ insertRec rest ty c :: l2 } := by
        simp [insertRec, hf, hrepl]
      rw [hins]
      have hcn : ((insertRec rest ty c).name == p) = true := by
        rw [insertRec_name]
        exact findNamed_test hf
      simp only [getNode, findNamed_append_first l2 hfail hcn]
      exact getNode_insertRec_self rest ty c
    | none =>
      have hins : insertRec (p :: rest) ty t
          = { t with children := t.children ++
              [insertRec rest ty
                ⟨p, childPath t.path p, rest.isEmpty && ty == "blob".toList, none, []⟩] } := by
        simp [insertRec, hf]
      rw [hins]
      have hcn : ((insertRec rest ty
          ⟨p, childPath t.path p, rest.isEmpty && ty == "blob".toList, none, []⟩).name == p)
          = true := by
        rw [insertRec_name]
        simp
      simp only [getNode, findNamed_append_none _ hf, findNamed_cons, if_pos hcn]
      exact getNode_insertRec_self rest ty _

theorem insertRec_of_getNode_isSome :
    ∀ (parts : List Str) (ty : Str) (t : TreeNode),
      (getNode parts t).isSome = true → insertRec parts ty t = t
  | [], _, _, _ => rfl
  | p :: rest, ty, t, h => by
    cases hf : findNamed t.children p with
    | none =>
      simp only [getNode, hf] at h
      simp at h
    | some c =>
      simp only [getNode, hf] at h
      have hc := insertRec_of_getNode_isSome rest ty c h
      obtain ⟨l1, l2, hl, hfail, hrepl⟩ := findNamed_split hf
      have hins : insertRec (p :: rest) ty t
          = { t with children := l1 ++ insertRec rest ty c :: l2 } := by
        simp [insertRec, hf, hrepl]
      rw [hins, hc, ← hl]
      obtain ⟨n0, p0, f0, sm0, cs0⟩ := t
      rfl

theorem getNode_isSome_insertRec :
    ∀ (parts : List Str) (ty : Str) (S : List Str) (t : TreeNode),
      (getNode S t).isSome = true → (getNode S (insertRec parts ty t)).isSome = true
  | [], _, _, _, h => h
  | p :: rest, ty, S, t, h => by
    cases S with
    | nil => rfl
    | cons q S' =>
      cases hq : findNamed t.children q with
      | none =>
        simp only [getNode, hq] at h
        simp at h
      | some d =>
        simp only [getNode, hq] at h
        cases hf : findNamed t.children p with
        | some c =>
          obtain ⟨l1, l2, hl, hfail, hrepl⟩ := findNamed_split hf
          have hins : insertRec (p :: rest) ty t
              = { t with children := l1 ++ insertRec rest ty c :: l2 } := by
            simp [insertRec, hf, hrepl]
          rw [hins]
          by_cases hqp : q = p
          · subst hqp
            have hdc : c = d := Option.some.inj (hf.symm.trans hq)
            have hcn : ((insertRec rest ty c).name == q) = true := by
              rw [insertRec_name]
              exact findNamed_test hf
            simp only [getNode, findNamed_append_first l2 hfail hcn]
            exact getNode_isSome_insertRec rest ty S' c (hdc ▸ h)
          · have hcq : (c.name == q) = false := by
              have hcp : c.name = p := eq_of_beq (findNamed_test hf)
              rw [hcp]
              exact beq_eq_false_iff_ne.mpr (fun hh => hqp hh.symm)
            have hfind : findNamed (l1 ++ insertRec rest ty c :: l2) q
                = findNamed (l1 ++ c :: l2) q :=
              findNamed_middle_congr (insertRec_name rest ty c) hcq l1 l2
            simp only [getNode, hfind, ← hl, hq]
            exact h
        | none =>
          have hins : insertRec (p :: rest) ty t
              = { t with children := t.children ++
                  [insertRec rest ty
                    ⟨p, childPath t.path p, rest.isEmpty && ty == "blob".toList, none, []⟩] } := by
            simp [insertRec, hf]
          rw [hins]
          simp only [getNode, findNamed_append_left _ hq]
          exact h

theorem getNode_isSome_foldl :
    ∀ (items : List BlobRecord) (S : List Str) (t : TreeNode),
      (getNode S t).isSome = true →
      (getNode S (items.foldl
        (fun node item => insertRec (pySplit '/' item.path) item.type node) t)).isSome = true
  | [], _, _, h => h
  | i :: is, S, t, h => by
    simp only [List.foldl_cons]
    exact getNode_isSome_foldl is S _ (getNode_isSome_insertRec _ _ S t h)

/-- C8: `build_hierarchy` is idempotent on duplicate paths — a list with a
duplicated record builds exactly the same tree as the list with the second
occurrence removed, wherever the duplicate sits. -/
theorem claim_C8_idempotent (xs ys zs : List BlobRecord) (r : BlobRecord) :
    build_hierarchy (xs ++ r :: (ys ++ r :: zs))
      = build_hierarchy (xs ++ r :: (ys ++ zs)) := by
  unfold build_hierarchy
  rw [List.foldl_append, List.foldl_append, List.foldl_cons, List.foldl_cons,
    List.foldl_append, List.foldl_append, List.foldl_cons]
  have hself : (getNode (pySplit '/' r.path)
      (insertRec (pySplit '/' r.path) r.type
        (List.foldl (fun node item => insertRec (pySplit '/' item.path) item.type node)
          rootNode xs))).isSome = true :=
    getNode_insertRec_self _ _ _
  have hkept := getNode_isSome_foldl ys (pySplit '/' r.path) _ hself
  have hstep := insertRec_of_getNode_isSome (pySplit '/' r.path) r.type _ hkept
  rw [hstep]

/-!
## C3: nodes with `isFile = true` and their children

`build_hierarchy` descends through an existing file node whenever a later
record's path extends a blob record's path, giving the file node children
(claim C3's counterexample).  Under the assumption that no blob record's
segment path is a proper prefix of another record's segment path — true of
every well-formed GitHub recursive listing — the invariant holds.
-/

theorem filesChildlessL_append : ∀ a b : List TreeNode,
    filesChildlessL (a ++ b) = (filesChildlessL a && filesChildlessL b)
  | [], b => by simp [filesChildlessL]
  | c :: cs, b => by
    show (filesChildless c && filesChildlessL (cs ++ b)) = _
    rw [filesChildlessL_append cs b]
    show _ = ((filesChildless c && filesChildlessL cs) && filesChildlessL b)
    cases filesChildless c <;> cases filesChildlessL cs <;>
      cases filesChildlessL b <;> rfl

/-- Where a node can sit in `insertRec parts ty t`: either at a position that
already existed (with its `isFile` unchanged), or at a position along `parts`
freshly created by this insertion — a file only at `parts` itself and only
for a `"blob"` record. -/
theorem getNode_insertRec_inv :
    ∀ (parts : List Str) (ty : Str) (t : TreeNode) (S : List Str) (m' : TreeNode),
      getNode S (insertRec parts ty t) = some m' →
      (∃ m, getNode S t = some m ∧ m.isFile = m'.isFile) ∨
      (∃ j, j ≤ parts.length ∧ S = parts.take j ∧
        (m'.isFile = true → (S = parts ∧ (ty == "blob".toList) = true)))
  | [], ty, t, S, m', h => .inl ⟨m', h, rfl⟩
  | p :: rest, ty, t, S, m', h => by
    cases S with
    | nil =>
      left
      refine ⟨t, rfl, ?_⟩
      have hm' : m' = insertRec (p :: rest) ty t := (Option.some.inj h).symm
      rw [hm', insertRec_isFile]
    | cons q S' =>
      cases hf : findNamed t.children p with
      | some c =>
        obtain ⟨l1, l2, hl, hfail, hrepl⟩ := findNamed_split hf
        have hins : insertRec (p :: rest) ty t
            = { t with children := l1 ++ insertRec rest ty c :: l2 } := by
          simp [insertRec, hf, hrepl]
        rw [hins] at h
        by_cases hqp : q = p
        · subst hqp
          have hcn : ((insertRec rest ty c).name == q) = true := by
            rw [insertRec_name]
            exact findNamed_test hf
          simp only [getNode, findNamed_append_first l2 hfail hcn] at h
          rcases getNode_insertRec_inv rest ty c S' m' h with ⟨m, hm, hfeq⟩ | ⟨j, hj, hS, hcond⟩
          · left
            refine ⟨m, ?_, hfeq⟩
            simp only [getNode, hf]
            exact hm
          · right
            refine ⟨j + 1, by simpa using hj, by simp [hS], ?_⟩
            intro hfile
            rcases hcond hfile with ⟨hSr, hblob⟩
            exact ⟨by rw [hSr], hblob⟩
        · have hcq : (c.name == q) = false := by
            have hcp : c.name = p := eq_of_beq (findNamed_test hf)
            rw [hcp]
            exact beq_eq_false_iff_ne.mpr (fun hh => hqp hh.symm)
          have hfind : findNamed (l1 ++ insertRec rest ty c :: l2) q
              = findNamed (l1 ++ c :: l2) q :=
            findNamed_middle_congr (insertRec_name rest ty c) hcq l1 l2
          simp only [getNode, hfind, ← hl] at h
          left
          refine ⟨m', ?_, rfl⟩
          simp only [getNode]
          exact h
      | none =>
        have hins : insertRec (p :: rest) ty t
            = { t with children := t.children ++
                [insertRec rest ty
                  ⟨p, childPath t.path p, rest.isEmpty && ty == "blob".toList, none, []⟩] } := by
          simp [insertRec, hf]
        rw [hins] at h
        cases hq : findNamed t.children q with
        | some d =>
          simp only [getNode, findNamed_append_left _ hq] at h
          left
          refine ⟨m', ?_, rfl⟩
          simp only [getNode, hq]
          exact h
        | none =>
          by_cases hqp : q = p
          · subst hqp
            have hcn : ((insertRec rest ty
                ⟨q, childPath t.path q, rest.isEmpty && ty == "blob".toList, none, []⟩).name == q)
                = true := by
              rw [insertRec_name]; simp
            simp only [getNode, findNamed_append_none _ hq, findNamed_cons, if_pos hcn] at h
            rcases getNode_insertRec_inv rest ty _ S' m' h with ⟨m, hm, hfeq⟩ | ⟨j, hj, hS, hcond⟩
            · -- inside the fresh node: its only reachable position is the empty path
              cases S' with
              | nil =>
                have hmfresh : m = ⟨q, childPath t.path q,
                    rest.isEmpty && ty == "blob".toList, none, []⟩ :=
                  (Option.some.inj hm).symm
                right
                refine ⟨1, by simp, by simp, ?_⟩
                intro hfile
                rw [← hfeq, hmfresh] at hfile
                simp only at hfile
                have hrest : rest.isEmpty = true ∧ (ty == "blob".toList) = true := by
                  constructor
                  · cases hre : rest.isEmpty
                    · rw [hre] at hfile; simp at hfile
                    · rfl
                  · cases hb : (ty == "blob".toList : Bool)
                    · rw [hb] at hfile; simp at hfile
                    · rfl
                have : rest = [] := by
                  cases rest with
                  | nil => rfl
                  | cons a as => simp at hrest
                subst this
                exact ⟨rfl, hrest.2⟩
              | cons q' S'' =>
                simp only [getNode, findNamed] at hm
                cases hm
            · right
              refine ⟨j + 1, by simpa using hj, by simp [hS], ?_⟩
              intro hfile
              rcases hcond hfile with ⟨hSr, hblob⟩
              exact ⟨by rw [hSr], hblob⟩
          · have hx : ((insertRec rest ty
                ⟨p, childPath t.path p, rest.isEmpty && ty == "blob".toList, none, []⟩).name == q)
                = false := by
              rw [insertRec_name]
              exact beq_eq_false_iff_ne.mpr (fun hh => hqp hh.symm)
            simp only [getNode, findNamed_append_none _ hq, findNamed_cons, hx] at h
            simp [findNamed, List.find?] at h

theorem filesChildlessL_eq_all :
    ∀ l : List TreeNode, filesChildlessL l = true ↔ ∀ c ∈ l, filesChildless c = true
  | [] => by simp [filesChildlessL]
  | c :: cs => by
    show (filesChildless c && filesChildlessL cs) = true ↔ _
    simp only [Bool.and_eq_true, filesChildlessL_eq_all cs, List.mem_cons]
    constructor
    · rintro ⟨h1, h2⟩ x (rfl | hx)
      · exact h1
      · exact h2 x hx
    · intro h
      exact ⟨h c (.inl rfl), fun x hx => h x (.inr hx)⟩

theorem filesChildless_insert :
    ∀ (parts : List Str) (ty : Str) (t : TreeNode),
      filesChildless t = true →
      (t.isFile = false ∨ parts = []) →
      (∀ k, 0 < k → k < parts.length →
        ∀ m, getNode (parts.take k) t = some m → m.isFile = false) →
      filesChildless (insertRec parts ty t) = true
  | [], _, _, hall, _, _ => hall
  | p :: rest, ty, t, hall, hroot, hwalk => by
    obtain ⟨n0, p0, f0, sm0, cs0⟩ := t
    have hf0 : f0 = false := by
      rcases hroot with h | h
      · exact h
      · simp at h
    subst hf0
    have hallL : ∀ c ∈ cs0, filesChildless c = true := by
      have : filesChildlessL cs0 = true := by
        have h2 : ((!false || cs0.isEmpty) && filesChildlessL cs0) = true := hall
        simp only [Bool.not_false, Bool.true_or, Bool.true_and] at h2
        exact h2
      exact (filesChildlessL_eq_all cs0).mp this
    cases hf : findNamed cs0 p with
    | some c =>
      obtain ⟨l1, l2, hl, hfail, hrepl⟩ := findNamed_split hf
      have hins : insertRec (p :: rest) ty ⟨n0, p0, false, sm0, cs0⟩
          = ⟨n0, p0, false, sm0, replaceNamed cs0 p (insertRec rest ty c)⟩ := by
        simp [insertRec, hf]
      rw [hins, hrepl]
      show ((!false || (l1 ++ insertRec rest ty c :: l2).isEmpty)
          && filesChildlessL (l1 ++ insertRec rest ty c :: l2)) = true
      simp only [Bool.not_false, Bool.true_or, Bool.true_and]
      rw [filesChildlessL_eq_all]
      intro x hx
      rcases List.mem_append.mp hx with hx1 | hx2
      · exact hallL x (by rw [hl]; exact List.mem_append.mpr (.inl hx1))
      · rcases List.mem_cons.mp hx2 with rfl | hx3
        · -- the recursively inserted child
          have hcmem : c ∈ cs0 := by
            rw [hl]; exact List.mem_append.mpr (.inr (List.mem_cons_self c l2))
          refine filesChildless_insert rest ty c (hallL c hcmem) ?_ ?_
          · by_cases hrest : rest = []
            · exact Or.inr hrest
            · left
              have hlen : 1 < (p :: rest).length := by
                have : 0 < rest.length := List.length_pos.mpr hrest
                simp only [List.length_cons]
                omega
              apply hwalk 1 (by omega) hlen c
              show getNode ((p :: rest).take 1) ⟨n0, p0, false, sm0, cs0⟩ = some c
              have ht1 : (p :: rest).take 1 = [p] := by simp
              rw [ht1]
              simp only [getNode, hf]
          · intro k' h0 hlen m hm
            have hlen2 : k' + 1 < (p :: rest).length := by
              simp only [List.length_cons]; omega
            apply hwalk (k' + 1) (by omega) hlen2 m
            show getNode ((p :: rest).take (k' + 1)) ⟨n0, p0, false, sm0, cs0⟩ = some m
            rw [List.take_succ_cons]
            simp only [getNode, hf]
            exact hm
        · exact hallL x (by rw [hl]; exact List.mem_append.mpr (.inr (List.mem_cons_of_mem c hx3)))
    | none =>
      have hins : insertRec (p :: rest) ty ⟨n0, p0, false, sm0, cs0⟩
          = ⟨n0, p0, false, sm0, cs0 ++
              [insertRec rest ty
                ⟨p, childPath p0 p, rest.isEmpty && ty == "blob".toList, none, []⟩]⟩ := by
        simp [insertRec, hf]
      rw [hins]
      show ((!false ||
          (cs0 ++ [insertRec rest ty
            ⟨p, childPath p0 p, rest.isEmpty && ty == "blob".toList, none, []⟩]).isEmpty)
        && filesChildlessL (cs0 ++ [insertRec rest ty
            ⟨p, childPath p0 p, rest.isEmpty && ty == "blob".toList, none, []⟩])) = true
      simp only [Bool.not_false, Bool.true_or, Bool.true_and]
      rw [filesChildlessL_eq_all]
      intro x hx
      rcases List.mem_append.mp hx with hx1 | hx2
      · exact hallL x hx1
      · rcases List.mem_cons.mp hx2 with rfl | hx3
        · refine filesChildless_insert rest ty _ ?_ ?_ ?_
          · show ((!(rest.isEmpty && ty == "blob".toList) || (List.isEmpty []))
              && filesChildlessL []) = true
            simp [filesChildlessL]
          · by_cases hrest : rest = []
            · exact Or.inr hrest
            · left
              show (rest.isEmpty && ty == "blob".toList) = false
              cases rest with
              | nil => exact absurd rfl hrest
              | cons a as => rfl
          · intro k' h0 hlen m hm
            cases rest with
            | nil => simp at hlen
            | cons a as =>
              obtain ⟨k'', rfl⟩ : ∃ k'', k' = k'' + 1 := ⟨k' - 1, by omega⟩
              rw [List.take_succ_cons] at hm
              simp [getNode, findNamed, List.find?] at hm
        · simp at hx3

/-- A blob record of `items` whose split path is exactly `S`. -/
def blobRecordedAt (items : List BlobRecord) (S : List Str) : Prop :=
  ∃ rr, rr ∈ items ∧ (rr.type == "blob".toList) = true ∧ pySplit '/' rr.path = S

theorem noBlobProperPre_spec {items : List BlobRecord}
    (h : noBlobProperPre items = true) :
    ∀ r ∈ items, (r.type == "blob".toList) = true →
      ∀ r2 ∈ items,
        ¬ (List.isPrefixOf (segsOf r) (segsOf r2) = true ∧ segsOf r ≠ segsOf r2) := by
  intro r hr hblob r2 hr2 ⟨hpre, hne⟩
  have h1 := List.all_eq_true.mp h r hr
  simp only [Bool.or_eq_true, Bool.not_eq_eq_eq_not, Bool.not_true] at h1
  rcases h1 with h1 | h1
  · rw [hblob] at h1; cases h1
  · have h2 := List.all_eq_true.mp h1 r2 hr2
    simp only [Bool.not_eq_eq_eq_not, Bool.not_true, Bool.and_eq_false_iff] at h2
    rcases h2 with h2 | h2
    · rw [hpre] at h2; cases h2
    · have : (segsOf r == segsOf r2) = true := by
        cases hb : (segsOf r == segsOf r2 : Bool)
        · rw [hb] at h2; cases h2
        · rfl
      exact hne (eq_of_beq this)

theorem J_insert (r : BlobRecord) (t : TreeNode) (items : List BlobRecord)
    (hr : r ∈ items)
    (hJ : ∀ S m, getNode S t = some m → m.isFile = true → blobRecordedAt items S) :
    ∀ S m, getNode S (insertRec (pySplit '/' r.path) r.type t) = some m →
      m.isFile = true → blobRecordedAt items S := by
  intro S m hget hfile
  rcases getNode_insertRec_inv _ _ _ _ _ hget with ⟨m0, hm0, heq⟩ | ⟨j, hj, hS, hcond⟩
  · exact hJ S m0 hm0 (heq.trans hfile)
  · rcases hcond hfile with ⟨hSparts, hblob⟩
    exact ⟨r, hr, hblob, hSparts.symm⟩

theorem build_invariant :
    ∀ (todo : List BlobRecord) (itemsFull : List BlobRecord) (t : TreeNode),
      (∀ r ∈ todo, r ∈ itemsFull) →
      noBlobProperPre itemsFull = true →
      t.isFile = false →
      filesChildless t = true →
      (∀ S m, getNode S t = some m → m.isFile = true → blobRecordedAt itemsFull S) →
      filesChildless (todo.foldl
        (fun node item => insertRec (pySplit '/' item.path) item.type node) t) = true
  | [], _, _, _, _, _, hall, _ => hall
  | r :: rs, itemsFull, t, hsub, H, htf, hall, hJ => by
    simp only [List.foldl_cons]
    have hrmem : r ∈ itemsFull := hsub r (List.mem_cons_self r rs)
    have hwalk : ∀ k, 0 < k → k < (pySplit '/' r.path).length →
        ∀ m, getNode ((pySplit '/' r.path).take k) t = some m → m.isFile = false := by
      intro k h0 hk m hm
      cases hfile : m.isFile with
      | false => rfl
      | true =>
        exfalso
        obtain ⟨rr, hrr, hrrblob, hrrsegs⟩ := hJ _ m hm hfile
        refine noBlobProperPre_spec H rr hrr hrrblob r hrmem ⟨?_, ?_⟩
        · -- segsOf rr = take k (segsOf r) is a prefix of segsOf r
          have : segsOf rr = (segsOf r).take k := hrrsegs
          rw [this]
          exact List.isPrefixOf_iff_prefix.mpr (List.take_prefix k (segsOf r))
        · have hlen : (segsOf rr).length = k := by
            show (pySplit '/' rr.path).length = k
            rw [hrrsegs, List.length_take]
            omega
          intro hcontra
          have hlen2 : (segsOf r).length = k := by rw [← hcontra]; exact hlen
          have hq : (segsOf r).length = (pySplit '/' r.path).length := rfl
          omega
    have hall' := filesChildless_insert (pySplit '/' r.path) r.type t hall (Or.inl htf) hwalk
    have htf' : (insertRec (pySplit '/' r.path) r.type t).isFile = false := by
      rw [insertRec_isFile]; exact htf
    have hJ' := J_insert r t itemsFull hrmem hJ
    exact build_invariant rs itemsFull _
      (fun x hx => hsub x (List.mem_cons_of_mem r hx)) H htf' hall' hJ'

theorem foldl_insert_path :
    ∀ (items : List BlobRecord) (t : TreeNode),
      (items.foldl (fun node item => insertRec (pySplit '/' item.path) item.type node) t).path
        = t.path
  | [], _ => rfl
  | i :: is, t => by
    simp only [List.foldl_cons]
    rw [foldl_insert_path is _, insertRec_path]

theorem foldl_insert_isFile :
    ∀ (items : List BlobRecord) (t : TreeNode),
      (items.foldl (fun node item => insertRec (pySplit '/' item.path) item.type node) t).isFile
        = t.isFile
  | [], _ => rfl
  | i :: is, t => by
    simp only [List.foldl_cons]
    rw [foldl_insert_isFile is _, insertRec_isFile]

/-- C3 (amended): provided no `"blob"` record's segment path is a proper
prefix of another record's segment path — which holds for every well-formed
GitHub recursive listing, where a prefix of a path is always a `"tree"`
entry — `build_hierarchy` returns a tree in which every node with
`isFile = true` has an empty children list; unconditionally, the root node
has `path = ""` and `isFile` false.  (The claim is false without the
proviso: a blob `"a"` followed by a blob `"a/b.txt"` yields a file node
with a child.) -/
theorem claim_C3_invariants (items : List BlobRecord)
    (h : noBlobProperPre items = true) :
    filesChildless (build_hierarchy items) = true ∧
    (build_hierarchy items).path = [] ∧
    (build_hierarchy items).isFile = false := by
  refine ⟨?_, ?_, ?_⟩
  · apply build_invariant items items rootNode (fun r hr => hr) h rfl rfl
    intro S m hm hfile
    exfalso
    cases S with
    | nil =>
      have : m = rootNode := (Option.some.inj hm).symm
      rw [this] at hfile
      cases hfile
    | cons q S' =>
      simp [getNode, rootNode, findNamed, List.find?] at hm
  · exact foldl_insert_path items rootNode
  · exact foldl_insert_isFile items rootNode

def c3Items : List BlobRecord :=
  [⟨"a".toList, "blob".toList⟩, ⟨"a/b.txt".toList, "blob".toList⟩]

/-- C3 counterexample: a blob record `"a"` followed by a blob record
`"a/b.txt"` — one record's path a proper prefix of the other's, exactly the
case the claim says is covered — builds a node with `isFile = true` and a
non-empty children list. -/
theorem claim_C3_counterexample :
    filesChildless (build_hierarchy c3Items) = false := by rfl

def c3GoodItems : List BlobRecord :=
  [⟨"a".toList, "tree".toList⟩, ⟨"a/b.txt".toList, "blob".toList⟩,
   ⟨"c.txt".toList, "blob".toList⟩]

theorem claim_C3_witness :
    noBlobProperPre c3GoodItems = true ∧
    (filesChildless (build_hierarchy c3GoodItems) = true ∧
     (build_hierarchy c3GoodItems).path = [] ∧
     (build_hierarchy c3GoodItems).isFile = false) :=
  ⟨by decide, claim_C3_invariants c3GoodItems (by decide)⟩

/-!
## C2: `parse_github_url` on well-formed URLs

A well-formed owner or repository segment consists of the characters GitHub
allows in owner and repository names: ASCII letters, digits, `-`, `_`, `.`.
-/

def ghNameChar (c : Char) : Bool :=
  c.isAlphanum || c = '-' || c = '_' || c = '.'

theorem ghName_ne {bad : Char} (hbad : ghNameChar bad = false) {c : Char}
    (h : ghNameChar c = true) : c ≠ bad := by
  intro hh
  rw [hh, hbad] at h
  cases h

theorem ghName_notSpace {c : Char} (h : ghNameChar c = true) : isPySpace c = false := by
  have h1 : c ≠ ' ' := ghName_ne (by decide) h
  have h2 : c ≠ '\t' := ghName_ne (by decide) h
  have h3 : c ≠ '\n' := ghName_ne (by decide) h
  have h4 : c ≠ '\x0d' := ghName_ne (by decide) h
  have h5 : c ≠ '\x0b' := ghName_ne (by decide) h
  have h6 : c ≠ '\x0c' := ghName_ne (by decide) h
  simp [isPySpace, h1, h2, h3, h4, h5, h6]

theorem ghName_notSlashSpace {c : Char} (h : ghNameChar c = true) :
    notSlashSpace c = true := by
  have h7 : c ≠ '/' := ghName_ne (by decide) h
  simp [notSlashSpace, ghName_notSpace h, h7]

theorem pyStrip_of_no_space {s : Str} (h : ∀ c ∈ s, isPySpace c = false) :
    pyStrip s = s := by
  have h1 : s.dropWhile isPySpace = s := by
    cases s with
    | nil => rfl
    | cons c cs =>
      rw [List.dropWhile_cons_of_neg]
      simp [h c (List.mem_cons_self c cs)]
  have h2 : s.reverse.dropWhile isPySpace = s.reverse := by
    cases hs : s.reverse with
    | nil => rfl
    | cons c cs =>
      rw [List.dropWhile_cons_of_neg]
      have hc : c ∈ s.reverse := by rw [hs]; exact List.mem_cons_self c cs
      simp [h c (List.mem_reverse.mp hc)]
  unfold pyStrip
  rw [h1, h2, List.reverse_reverse]

/-- `s.replace(pat, rep)` is the identity when some character of `pat` does
not occur in `s` at all. -/
theorem pyReplace_not_occurs {pat rep : Str} {ch : Char}
    (hch : ch ∈ pat) : ∀ {s : Str}, ch ∉ s → pyReplace pat rep s = s := by
  intro s
  induction s with
  | nil => intro _; rfl
  | cons c cs ih =>
    intro hs
    have hpre : pat.isPrefixOf (c :: cs) = false := by
      cases hp : pat.isPrefixOf (c :: cs)
      · rfl
      · exfalso
        have hsub := (List.isPrefixOf_iff_prefix.mp hp).subset
        exact hs (hsub hch)
    rw [pyReplace_cons_neg _ _ _ _ hpre,
      ih (fun hmem => hs (List.mem_cons_of_mem c hmem))]

/-- `s.replace(pat, rep)` replaces a pattern occurrence sitting at the head. -/
theorem pyReplace_head (pat rep tail : Str) (hne : pat ≠ []) :
    pyReplace pat rep (pat ++ tail) = rep ++ pyReplace pat rep tail := by
  cases hp : pat with
  | nil => exact absurd hp hne
  | cons p ps =>
    rw [← hp]
    have hshape : pat ++ tail = p :: (ps ++ tail) := by rw [hp]; rfl
    rw [hshape]
    rw [pyReplace_cons_pos pat rep p (ps ++ tail) hne
      (by rw [← hshape]; exact List.isPrefixOf_iff_prefix.mpr ⟨tail, rfl⟩)]
    congr 1
    rw [← hshape, List.drop_left]

/-- Walking a replacement over a prefix in which the pattern never matches. -/
theorem pyReplace_append_safe (pat rep : Str) :
    ∀ (pre s : Str),
      (∀ i, i < pre.length → pat.isPrefixOf (pre.drop i ++ s) = false) →
      pyReplace pat rep (pre ++ s) = pre ++ pyReplace pat rep s
  | [], s, _ => by simp
  | c :: pre, s, h => by
    have h0 : pat.isPrefixOf (c :: (pre ++ s)) = false := by
      have := h 0 (by simp)
      simpa using this
    rw [List.cons_append, pyReplace_cons_neg _ _ _ _ h0,
      pyReplace_append_safe pat rep pre s
        (fun i hi => by
          have := h (i + 1) (by simp only [List.length_cons]; omega)
          simpa using this),
      List.cons_append]

theorem takeWhile_append_stop {p : Char → Bool} :
    ∀ (l : Str) (c : Char) (r : Str),
      (∀ x ∈ l, p x = true) → p c = false → (l ++ c :: r).takeWhile p = l
  | [], c, r, _, hc => by simp [hc]
  | x :: l, c, r, hall, hc => by
    rw [List.cons_append, List.takeWhile_cons_of_pos (hall x (List.mem_cons_self x l)),
      takeWhile_append_stop l c r (fun y hy => hall y (List.mem_cons_of_mem x hy)) hc]

theorem matchCore_off {s : Str} (h : githubComSlash.isPrefixOf s = false) :
    matchCore s = none := by
  simp [matchCore, h]

theorem searchCore_cons_none {c : Char} {s : Str} (h : matchCore (c :: s) = none) :
    searchCore (c :: s) = searchCore s := by
  simp [searchCore, h]

theorem searchCore_cons_some {c : Char} {s : Str} {r : Str × Str}
    (h : matchCore (c :: s) = some r) : searchCore (c :: s) = some r := by
  simp [searchCore, h]

theorem matchCore_hit (owner rseg : Str) (ho : owner ≠ []) (hr : rseg ≠ [])
    (hoc : ∀ c ∈ owner, notSlashSpace c = true)
    (hrc : ∀ c ∈ rseg, notSlashSpace c = true) :
    matchCore (githubComSlash ++ (owner ++ '/' :: rseg)) = some (owner, rseg) := by
  have hpre : githubComSlash.isPrefixOf (githubComSlash ++ (owner ++ '/' :: rseg)) = true :=
    List.isPrefixOf_iff_prefix.mpr ⟨_, rfl⟩
  have h1 : (githubComSlash ++ (owner ++ '/' :: rseg)).drop githubComSlash.length
      = owner ++ '/' :: rseg := List.drop_left _ _
  have h2 : (owner ++ '/' :: rseg).takeWhile notSlashSpace = owner :=
    takeWhile_append_stop owner '/' rseg hoc (by decide)
  have h3 : (owner ++ '/' :: rseg).drop owner.length = '/' :: rseg := List.drop_left _ _
  have h4 : rseg.takeWhile notSlashSpace = rseg :=
    List.takeWhile_eq_self_iff.mpr (fun x hx => hrc x hx)
  simp [matchCore, hpre, h1, h2, h3, h4, ho, hr]

theorem replace_colon_https (X : Str) (hX : ':' ∉ X) :
    pyReplace githubColon githubComSlash (httpsGithub ++ X) = httpsGithub ++ X := by
  have hC : githubColon
      = 'g':: 'i':: 't':: 'h':: 'u':: 'b':: '.':: 'c':: 'o':: 'm':: ':'::[] := by decide
  have hH : httpsGithub
      = 'h':: 't':: 't':: 'p':: 's':: ':':: '/':: '/':: 'g':: 'i':: 't':: 'h':: 'u':: 'b':: '.':: 'c':: 'o':: 'm':: '/'::[] := by
    decide
  rw [hH]
  simp only [List.cons_append, List.nil_append]
  rw [pyReplace_cons_neg _ _ _ _ (by rw [hC]; simp [List.isPrefixOf])]
  rw [pyReplace_cons_neg _ _ _ _ (by rw [hC]; simp [List.isPrefixOf])]
  rw [pyReplace_cons_neg _ _ _ _ (by rw [hC]; simp [List.isPrefixOf])]
  rw [pyReplace_cons_neg _ _ _ _ (by rw [hC]; simp [List.isPrefixOf])]
  rw [pyReplace_cons_neg _ _ _ _ (by rw [hC]; simp [List.isPrefixOf])]
  rw [pyReplace_cons_neg _ _ _ _ (by rw [hC]; simp [List.isPrefixOf])]
  rw [pyReplace_cons_neg _ _ _ _ (by rw [hC]; simp [List.isPrefixOf])]
  rw [pyReplace_cons_neg _ _ _ _ (by rw [hC]; simp [List.isPrefixOf])]
  rw [pyReplace_cons_neg _ _ _ _ (by rw [hC]; simp [List.isPrefixOf])]
  rw [pyReplace_cons_neg _ _ _ _ (by rw [hC]; simp [List.isPrefixOf])]
  rw [pyReplace_cons_neg _ _ _ _ (by rw [hC]; simp [List.isPrefixOf])]
  rw [pyReplace_cons_neg _ _ _ _ (by rw [hC]; simp [List.isPrefixOf])]
  rw [pyReplace_cons_neg _ _ _ _ (by rw [hC]; simp [List.isPrefixOf])]
  rw [pyReplace_cons_neg _ _ _ _ (by rw [hC]; simp [List.isPrefixOf])]
  rw [pyReplace_cons_neg _ _ _ _ (by rw [hC]; simp [List.isPrefixOf])]
  rw [pyReplace_cons_neg _ _ _ _ (by rw [hC]; simp [List.isPrefixOf])]
  rw [pyReplace_cons_neg _ _ _ _ (by rw [hC]; simp [List.isPrefixOf])]
  rw [pyReplace_cons_neg _ _ _ _ (by rw [hC]; simp [List.isPrefixOf])]
  rw [pyReplace_cons_neg _ _ _ _ (by rw [hC]; simp [List.isPrefixOf])]
  rw [pyReplace_not_occurs (show ':' ∈ githubColon by decide) hX]

theorem search_https (owner rseg : Str) (ho : owner ≠ []) (hr : rseg ≠ [])
    (hoc : ∀ c ∈ owner, notSlashSpace c = true)
    (hrc : ∀ c ∈ rseg, notSlashSpace c = true) :
    searchCore (httpsGithub ++ (owner ++ '/' :: rseg)) = some (owner, rseg) := by
  have hG : githubComSlash
      = 'g':: 'i':: 't':: 'h':: 'u':: 'b':: '.':: 'c':: 'o':: 'm':: '/'::[] := by decide
  have hH : httpsGithub
      = 'h':: 't':: 't':: 'p':: 's':: ':':: '/':: '/':: 'g':: 'i':: 't':: 'h':: 'u':: 'b':: '.':: 'c':: 'o':: 'm':: '/'::[] := by
    decide
  have hmc : matchCore ('g':: 'i':: 't':: 'h':: 'u':: 'b':: '.':: 'c':: 'o':: 'm':: '/'::
      (owner ++ '/' :: rseg)) = some (owner, rseg) := by
    have h := matchCore_hit owner rseg ho hr hoc hrc
    rw [hG] at h
    simpa using h
  rw [hH]
  simp only [List.cons_append, List.nil_append]
  rw [searchCore_cons_none (matchCore_off (by rw [hG]; simp [List.isPrefixOf]))]
  rw [searchCore_cons_none (matchCore_off (by rw [hG]; simp [List.isPrefixOf]))]
  rw [searchCore_cons_none (matchCore_off (by rw [hG]; simp [List.isPrefixOf]))]
  rw [searchCore_cons_none (matchCore_off (by rw [hG]; simp [List.isPrefixOf]))]
  rw [searchCore_cons_none (matchCore_off (by rw [hG]; simp [List.isPrefixOf]))]
  rw [searchCore_cons_none (matchCore_off (by rw [hG]; simp [List.isPrefixOf]))]
  rw [searchCore_cons_none (matchCore_off (by rw [hG]; simp [List.isPrefixOf]))]
  rw [searchCore_cons_none (matchCore_off (by rw [hG]; simp [List.isPrefixOf]))]
  exact searchCore_cons_some hmc

theorem parse_https_form (owner rseg : Str)
    (ho : owner ≠ []) (hr : rseg ≠ [])
    (hoc : ∀ c ∈ owner, ghNameChar c = true)
    (hrc : ∀ c ∈ rseg, ghNameChar c = true) :
    parse_github_url (httpsGithub ++ (owner ++ '/' :: rseg))
      = some (owner, pyReplace dotGit [] rseg) := by
  have hfix : ∀ c ∈ httpsGithub, isPySpace c = false := by decide
  have hnosp : ∀ c ∈ httpsGithub ++ (owner ++ '/' :: rseg), isPySpace c = false := by
    intro c hc
    rcases List.mem_append.mp hc with h1 | h2
    · exact hfix c h1
    · rcases List.mem_append.mp h2 with h3 | h4
      · exact ghName_notSpace (hoc c h3)
      · rcases List.mem_cons.mp h4 with rfl | h5
        · decide
        · exact ghName_notSpace (hrc c h5)
  have hne : ¬ (httpsGithub ++ (owner ++ '/' :: rseg)) = [] := by
    intro hh
    exact absurd (List.append_eq_nil.mp hh).1 (by decide)
  have hat : '@' ∉ httpsGithub ++ (owner ++ '/' :: rseg) := by
    intro hc
    rcases List.mem_append.mp hc with h1 | h2
    · exact absurd h1 (by decide)
    · rcases List.mem_append.mp h2 with h3 | h4
      · exact absurd (hoc '@' h3) (by decide)
      · rcases List.mem_cons.mp h4 with h5 | h5
        · exact absurd h5 (by decide)
        · exact absurd (hrc '@' h5) (by decide)
  have hcolon : ':' ∉ owner ++ '/' :: rseg := by
    intro hc
    rcases List.mem_append.mp hc with h3 | h4
    · exact absurd (hoc ':' h3) (by decide)
    · rcases List.mem_cons.mp h4 with h5 | h5
      · exact absurd h5 (by decide)
      · exact absurd (hrc ':' h5) (by decide)
  unfold parse_github_url
  rw [if_neg hne, pyStrip_of_no_space hnosp,
    pyReplace_not_occurs (show '@' ∈ sshGithub by decide) hat,
    replace_colon_https _ hcolon]
  show (match searchCore (httpsGithub ++ (owner ++ '/' :: rseg)) with
    | none => none
    | some (o, repo) => some (o, pyReplace dotGit [] repo)) = _
  rw [search_https owner rseg ho hr
      (fun c hc => ghName_notSlashSpace (hoc c hc))
      (fun c hc => ghName_notSlashSpace (hrc c hc))]

theorem parse_ssh_form (owner rseg : Str)
    (ho : owner ≠ []) (hr : rseg ≠ [])
    (hoc : ∀ c ∈ owner, ghNameChar c = true)
    (hrc : ∀ c ∈ rseg, ghNameChar c = true) :
    parse_github_url (sshGithub ++ (owner ++ '/' :: rseg))
      = some (owner, pyReplace dotGit [] rseg) := by
  have hfix : ∀ c ∈ sshGithub, isPySpace c = false := by decide
  have hnosp : ∀ c ∈ sshGithub ++ (owner ++ '/' :: rseg), isPySpace c = false := by
    intro c hc
    rcases List.mem_append.mp hc with h1 | h2
    · exact hfix c h1
    · rcases List.mem_append.mp h2 with h3 | h4
      · exact ghName_notSpace (hoc c h3)
      · rcases List.mem_cons.mp h4 with rfl | h5
        · decide
        · exact ghName_notSpace (hrc c h5)
  have hne : ¬ (sshGithub ++ (owner ++ '/' :: rseg)) = [] := by
    intro hh
    exact absurd (List.append_eq_nil.mp hh).1 (by decide)
  have hatRest : '@' ∉ owner ++ '/' :: rseg := by
    intro hc
    rcases List.mem_append.mp hc with h3 | h4
    · exact absurd (hoc '@' h3) (by decide)
    · rcases List.mem_cons.mp h4 with h5 | h5
      · exact absurd h5 (by decide)
      · exact absurd (hrc '@' h5) (by decide)
  have hcolon : ':' ∉ owner ++ '/' :: rseg := by
    intro hc
    rcases List.mem_append.mp hc with h3 | h4
    · exact absurd (hoc ':' h3) (by decide)
    · rcases List.mem_cons.mp h4 with h5 | h5
      · exact absurd h5 (by decide)
      · exact absurd (hrc ':' h5) (by decide)
  unfold parse_github_url
  rw [if_neg hne, pyStrip_of_no_space hnosp,
    pyReplace_head sshGithub httpsGithub _ (by decide),
    pyReplace_not_occurs (show '@' ∈ sshGithub by decide) hatRest,
    replace_colon_https _ hcolon]
  show (match searchCore (httpsGithub ++ (owner ++ '/' :: rseg)) with
    | none => none
    | some (o, repo) => some (o, pyReplace dotGit [] repo)) = _
  rw [search_https owner rseg ho hr
      (fun c hc => ghName_notSlashSpace (hoc c hc))
      (fun c hc => ghName_notSlashSpace (hrc c hc))]

/-- C2 (amended): for well-formed `https://github.com/{owner}/{rseg}` and
`git@github.com:{owner}/{rseg}` inputs — `owner` and `rseg` non-empty strings
over GitHub's name alphabet (letters, digits, `-`, `_`, `.`), `rseg` the
repository segment as written, optionally ending in `.git` —
`parse_github_url` returns exactly `owner`, and the repository name with
EVERY occurrence of `".git"` removed (leftmost, non-overlapping), not just a
trailing suffix: `.replace(".git", "")` mangles names containing `".git"`
internally. -/
theorem claim_C2_parse_wellformed (owner rseg : Str)
    (ho : owner ≠ []) (hr : rseg ≠ [])
    (hoc : ∀ c ∈ owner, ghNameChar c = true)
    (hrc : ∀ c ∈ rseg, ghNameChar c = true) :
    parse_github_url (httpsGithub ++ (owner ++ '/' :: rseg))
      = some (owner, pyReplace dotGit [] rseg) ∧
    parse_github_url (sshGithub ++ (owner ++ '/' :: rseg))
      = some (owner, pyReplace dotGit [] rseg) :=
  ⟨parse_https_form owner rseg ho hr hoc hrc,
   parse_ssh_form owner rseg ho hr hoc hrc⟩

/-- C2 counterexample: the repository name `user.github.io` contains `".git"`
as an internal substring; the code's `.replace(".git", "")` removes it, so
the parsed repo is `userhub.io`, not the claimed unchanged name. -/
theorem claim_C2_counterexample :
    parse_github_url "https://github.com/foo/user.github.io".toList
      = some ("foo".toList, "userhub.io".toList) ∧
    "userhub.io".toList ≠ "user.github.io".toList := by decide

theorem claim_C2_witness :
    ("foo".toList ≠ ([] : Str)) ∧ ("bar.git".toList ≠ ([] : Str)) ∧
    (parse_github_url (httpsGithub ++ ("foo".toList ++ '/' :: "bar.git".toList))
        = some ("foo".toList, pyReplace dotGit [] "bar.git".toList) ∧
     parse_github_url (sshGithub ++ ("foo".toList ++ '/' :: "bar.git".toList))
        = some ("foo".toList, pyReplace dotGit [] "bar.git".toList)) :=
  ⟨by decide, by decide,
    claim_C2_parse_wellformed "foo".toList "bar.git".toList
      (by decide) (by decide) (by decide) (by decide)⟩
